import Mathlib

/-!
Shallow embedding of `MERFISH_probe_design/probe_design/readout_sequences.py`.

Python strings are embedded as `List Char`, pandas data frames as lists of
structures (one structure per row, one field per column), and Python
exceptions as `Option` (a raised exception is `none`).  The numpy global
random generator (re-seeded by `np.random.seed()` at the top of each call of
the single-transcript assigner) is embedded as an oracle `Nat → Nat` handed
to each call: the `j`-th draw of the generator is the natural number `r j`,
and `np.random.choice` style selections reduce the draw modulo the relevant
population size.  All claims quantify over every oracle, so no distribution
is modelled.  `probe_table.sort_values(by='shift')` (pandas default
`kind='quicksort'`) is embedded by numpy's introsort-based `argsort`
(quicksort with median-of-three pivoting, small segments finished by
insertion sort, a per-segment depth limit falling back to heapsort), applied
to the `shift` column, reproduced operation for operation from numpy's
`npysort` quicksort and heapsort sources (`aquicksort` / `aheapsort`).
-/
/-- A row of a per-transcript probe table: the columns read by the module. -/
structure Probe where
  shift : Int
  target_sequence : List Char
deriving DecidableEq

/-- A row of the readout-sequence table: columns `id`, `sequence`, `on-bit`. -/
structure ReadoutSeq where
  id : List Char
  sequence : List Char
  on_bit : Int
deriving DecidableEq

/-- A probe-table row after the assigner added its three output columns. -/
structure ProbeOut where
  shift : Int
  target_sequence : List Char
  readout_names : List Char
  probe_barcode : List Char
  target_readout_sequence : List Char
deriving DecidableEq

/-- A row of the barcode table.  The module reads one gene-identifier column
(selected by `gene_id_key`, either `name` or `id`) and `barcode_str`. -/
structure BcRow where
  gene_name : List Char
  gene_id : List Char
  barcode_str : List Char
deriving DecidableEq

/-- `barcode_to_on_bits`: `[i for i in range(len(barcode)) if barcode[i] == '1']`. -/
def barcode_to_on_bits (barcode : List Char) : List Int :=
  ((List.range barcode.length).filter (fun i => barcode.getD i ' ' == '1')).map
    (fun i => Int.ofNat i)

/-- `on_bits_to_barcodes`:
`''.join(['1' if i in on_bits else '0' for i in range(barcode_length)])`. -/
def on_bits_to_barcodes (on_bits : List Int) (barcode_length : Nat) : List Char :=
  (List.range barcode_length).map
    (fun i => if Int.ofNat i ∈ on_bits then '1' else '0')

/-! ### numpy `argsort(kind='quicksort')`, as called by `sort_values(by='shift')`

The sort permutes an index array `t` (`tosort`); the value array `v` stays
fixed.  `keyAt v t i` is `v[t[i]]`.  Out-of-range reads return junk default
values and out-of-range writes are dropped; all call sites stay in range. -/
/-- `v[t[i]]` for the index array `t` over values `v`. -/
def keyAt (v : List Int) (t : List Nat) (i : Nat) : Int :=
  v.getD (t.getD i 0) 0

/-- `INTP_SWAP(t[i], t[j])`. -/
def npSwap (t : List Nat) (i j : Nat) : List Nat :=
  (t.set i (t.getD j 0)).set j (t.getD i 0)

/-- Inner shift loop of numpy's insertion sort on `tosort`:
`while (pj > pl && vp < v[*pk]) *pj-- = *pk--;  *pj = vi;`. -/
def npInsertInner (v : List Int) (t : List Nat) (pl : Nat) (vi : Nat) :
    Nat → Nat → List Nat
  | 0, pj => t.set pj vi
  | fuel + 1, pj =>
    if pl < pj ∧ v.getD vi 0 < keyAt v t (pj - 1) then
      npInsertInner v (t.set pj (t.getD (pj - 1) 0)) pl vi fuel (pj - 1)
    else
      t.set pj vi

/-- Outer loop of numpy's insertion sort on the segment `[pl, pr]`:
`for (pi = pl + 1; pi <= pr; ++pi)`.  `fuel` bounds the remaining steps. -/
def npInsertSortFrom (v : List Int) (pl pr : Nat) : Nat → List Nat → Nat → List Nat
  | 0, t, _ => t
  | fuel + 1, t, pi =>
    if pi ≤ pr then
      npInsertSortFrom v pl pr fuel (npInsertInner v t pl (t.getD pi 0) pi pi) (pi + 1)
    else
      t

/-- numpy insertion sort of the segment `[pl, pr]` of the index array. -/
def npInsertSortSeg (v : List Int) (t : List Nat) (pl pr : Nat) : List Nat :=
  npInsertSortFrom v pl pr (pr + 1 - pl) t (pl + 1)

/-- Sift-down of numpy's `aheapsort` over the one-based segment view
`a[k] = t[base + k - 1]`, carrying the displaced element `tmp`. -/
def npSiftDown (v : List Int) (base n : Nat) (tmp : Nat) :
    Nat → List Nat → Nat → Nat → List Nat
  | 0, t, i, _ => t.set (base + i - 1) tmp
  | fuel + 1, t, i, j =>
    if j ≤ n then
      let j' := if j < n ∧ keyAt v t (base + j - 1) < keyAt v t (base + j) then j + 1 else j
      if v.getD tmp 0 < keyAt v t (base + j' - 1) then
        npSiftDown v base n tmp fuel (t.set (base + i - 1) (t.getD (base + j' - 1) 0)) j' (j' + j')
      else
        t.set (base + i - 1) tmp
    else
      t.set (base + i - 1) tmp

/-- Heapify loop of `aheapsort`: `for (l = n >> 1; l > 0; --l)`. -/
def npHeapifyLoop (v : List Int) (base n : Nat) : Nat → List Nat → List Nat
  | 0, t => t
  | l + 1, t =>
    npHeapifyLoop v base n l
      (npSiftDown v base n (t.getD (base + l + 1 - 1) 0) (n + 1) t (l + 1) ((l + 1) + (l + 1)))

/-- Pop loop of `aheapsort`: `for (; n > 1;)`. -/
def npHeapPopLoop (v : List Int) (base : Nat) : Nat → List Nat → List Nat
  | 0, t => t
  | 1, t => t
  | n + 2, t =>
    let tmp := t.getD (base + n + 2 - 1) 0
    let t1 := t.set (base + n + 2 - 1) (t.getD base 0)
    npHeapPopLoop v base (n + 1) (npSiftDown v base (n + 1) tmp (n + 2) t1 1 2)

/-- numpy `aheapsort` of the segment `[pl, pr]` (one-based length
`n = pr - pl + 1`). -/
def npHeapSortSeg (v : List Int) (t : List Nat) (pl pr : Nat) : List Nat :=
  npHeapPopLoop v pl (pr + 1 - pl) (npHeapifyLoop v pl (pr + 1 - pl) ((pr + 1 - pl) / 2) t)

/-- Left scan of numpy's Hoare partition: `do ++pi; while (v[*pi] < vp);`.
Returns the final `pi`. -/
def npScanLo (v : List Int) (t : List Nat) (vp : Int) : Nat → Nat → Nat
  | 0, pi => pi + 1
  | fuel + 1, pi =>
    if keyAt v t (pi + 1) < vp then npScanLo v t vp fuel (pi + 1) else pi + 1

/-- Right scan of numpy's Hoare partition: `do --pj; while (vp < v[*pj]);`.
Returns the final `pj`. -/
def npScanHi (v : List Int) (t : List Nat) (vp : Int) : Nat → Nat → Nat
  | 0, pj => pj - 1
  | fuel + 1, pj =>
    if vp < keyAt v t (pj - 1) then npScanHi v t vp fuel (pj - 1) else pj - 1

/-- Swap loop of numpy's Hoare partition; returns the array and the final `pi`. -/
def npPartLoop (v : List Int) (vp : Int) : Nat → List Nat → Nat → Nat → List Nat × Nat
  | 0, t, pi, _ => (t, pi)
  | fuel + 1, t, pi, pj =>
    let pi' := npScanLo v t vp t.length pi
    let pj' := npScanHi v t vp t.length pj
    if pi' < pj' then npPartLoop v vp fuel (npSwap t pi' pj') pi' pj'
    else (t, pi')

/-- One partition step of numpy's quicksort on the segment `[pl, pr]`:
median-of-three pivoting, the Hoare swap loop, and the final swap placing the
pivot; returns the array and the pivot position `pi`. -/
def npPartition (v : List Int) (t : List Nat) (pl pr : Nat) : List Nat × Nat :=
  let pm := pl + (pr - pl) / 2
  let t1 := if keyAt v t pm < keyAt v t pl then npSwap t pm pl else t
  let t2 := if keyAt v t1 pr < keyAt v t1 pm then npSwap t1 pr pm else t1
  let t3 := if keyAt v t2 pm < keyAt v t2 pl then npSwap t2 pm pl else t2
  let vp := keyAt v t3 pm
  let t4 := npSwap t3 pm (pr - 1)
  let s := npPartLoop v vp (t4.length + 1) t4 pl (pr - 1)
  (npSwap s.1 s.2 (pr - 1), s.2)

/-- numpy introsort (`aquicksort`) on the segment `[pl, pr]`.  The C code
keeps one `cdepth` per segment (pushed and popped with the segment): the
`while` loop partitions and continues with the smaller partition carrying
`cdepth - 1` unchecked, while the larger partition is pushed with
`cdepth - 1` and, when popped, is heapsorted if its saved depth is negative
and otherwise re-enters the loop.  Small segments are insertion sorted. -/
def npIntroLoop (v : List Int) : Nat → List Nat → Nat → Nat → Int → List Nat
  | 0, t, _, _, _ => t
  | fuel + 1, t, pl, pr, depth =>
    if 15 < pr - pl then
      let s := npPartition v t pl pr
      let pi := s.2
      if pi - pl < pr - pi then
        let t1 := npIntroLoop v fuel s.1 pl (pi - 1) (depth - 1)
        if depth - 1 < 0 then npHeapSortSeg v t1 (pi + 1) pr
        else npIntroLoop v fuel t1 (pi + 1) pr (depth - 1)
      else
        let t1 := npIntroLoop v fuel s.1 (pi + 1) pr (depth - 1)
        if depth - 1 < 0 then npHeapSortSeg v t1 pl (pi - 1)
        else npIntroLoop v fuel t1 pl (pi - 1) (depth - 1)
    else
      npInsertSortSeg v t pl pr

/-- `npy_get_msb`: the position of the most significant bit of `n`
(`0` for `n ≤ 1`), computed with explicit fuel. -/
def npMsb : Nat → Nat → Nat
  | 0, _ => 0
  | fuel + 1, n => if n ≤ 1 then 0 else npMsb fuel (n / 2) + 1

/-- numpy `argsort(kind='quicksort')` of the value list `v`: the index
permutation produced by `aquicksort` started on `[0, len - 1]` with
`depth_limit = npy_get_msb(len) * 2` (nonnegative, so the initial segment
enters the partition loop directly). -/
def npArgsort (v : List Int) : List Nat :=
  npIntroLoop v (v.length + 1) (List.range v.length) 0 (v.length - 1)
    (2 * (npMsb v.length v.length : Int))

/-- `probe_table.sort_values(by='shift')`: pandas sorts by the `shift` column
with its default `kind='quicksort'`, i.e. takes the rows in the order of
numpy's `argsort` of that column. -/
def sort_values_shift (probe_table : List Probe) : List Probe :=
  (npArgsort (probe_table.map (fun p => p.shift))).map
    (fun i => probe_table.getD i { shift := 0, target_sequence := [] })

/-! ### The numpy random draws used by the assigner -/
/-- `np.random.choice(a)` for a one-dimensional population `a`: raises on an
empty population, otherwise returns the element selected by the oracle draw. -/
def npChoice1 (a : List Int) (r : Nat) : Option Int :=
  if a.length = 0 then none else some (a.getD (r % a.length) 0)

/-- `np.random.choice(a, k, replace=True)`: raises on an empty population,
otherwise returns `k` independent oracle-selected elements. -/
def npChoiceReplace (a : List Int) (k : Nat) (r : Nat → Nat) : Option (List Int) :=
  if a.length = 0 then none
  else some ((List.range k).map (fun j => a.getD (r j % a.length) 0))

/-- The successive removals realising `np.random.choice(..., replace=False)`:
each step the oracle selects one remaining element, which is removed. -/
def npDrawNoReplace (r : Nat → Nat) : Nat → Nat → List Int → List Int
  | _, 0, _ => []
  | step, k + 1, a =>
    a.getD (r step % a.length) 0 ::
      npDrawNoReplace r (step + 1) k (a.eraseIdx (r step % a.length))

/-- `np.random.choice(a, k, replace=False)`: raises when the sample size
exceeds the population, otherwise draws `k` elements without replacement. -/
def npChoiceNoReplace (a : List Int) (k : Nat) (r : Nat → Nat) : Option (List Int) :=
  if a.length < k then none else some (npDrawNoReplace r 0 k a)

/-- The per-probe on-bit selection of the assigner (the three-way branch on
`each_probe_1_on_bit` and `len(on_bits) >= N_readout_per_probe`). -/
def choose_on_bits (on_bits : List Int) (N_readout_per_probe : Nat)
    (each_probe_1_on_bit : Bool) (r : Nat → Nat) : Option (List Int) :=
  if each_probe_1_on_bit then
    (npChoice1 on_bits (r 0)).map (List.replicate N_readout_per_probe)
  else if N_readout_per_probe ≤ on_bits.length then
    npChoiceNoReplace on_bits N_readout_per_probe r
  else
    npChoiceReplace on_bits N_readout_per_probe r

/-! ### The single-transcript assigner -/
/-- The on-bit dictionary built before the probe loop: for each on-bit the
first readout row with that `on-bit` value gives `(id, sequence)`; an on-bit
with no matching row raises (`readout_seqs[...].iloc[0]` of an empty
selection). -/
def buildOnBitDict (readout_seqs : List ReadoutSeq) :
    List Int → Option (List (Int × List Char × List Char))
  | [] => some []
  | ob :: rest =>
    match readout_seqs.find? (fun e => e.on_bit == ob) with
    | none => none
    | some e => (buildOnBitDict readout_seqs rest).map (fun d => (ob, e.id, e.sequence) :: d)

/-- `on_bit_dict[ob]` (`none` embeds a `KeyError`). -/
def dictGet (d : List (Int × List Char × List Char)) (ob : Int) :
    Option (List Char × List Char) :=
  (d.find? (fun p => p.1 == ob)).map (fun p => p.2)

/-- The readout-attachment loop `for j, ob in enumerate(probe_on_bits)`:
threads `(ro_names, seq)` (initially `('', target_sequence)`), prepending
`ro_seq + spacer` and `ro_name + ':'` while `j < n_left` and appending
`spacer + ro_seq` and `':' + ro_name` afterwards. -/
def readoutFold (d : List (Int × List Char × List Char)) (spacer : List Char)
    (n_left : Nat) : Nat → List Int → List Char × List Char →
    Option (List Char × List Char)
  | _, [], st => some st
  | j, ob :: rest, st =>
    match dictGet d ob with
    | none => none
    | some p =>
      readoutFold d spacer n_left (j + 1) rest
        (if j < n_left then (p.1 ++ ':' :: st.1, p.2 ++ spacer ++ st.2)
         else (st.1 ++ ':' :: p.1, st.2 ++ spacer ++ p.2))

/-- The body of the probe loop for one row: sample the on-bits, derive the
probe barcode, and attach the readout sequences and names. -/
def processProbe (d : List (Int × List Char × List Char)) (on_bits : List Int)
    (barcode_length N_readout_per_probe : Nat) (spacer : List Char)
    (each_probe_1_on_bit : Bool) (r : Nat → Nat) (row : Probe) : Option ProbeOut :=
  match choose_on_bits on_bits N_readout_per_probe each_probe_1_on_bit r with
  | none => none
  | some probe_on_bits =>
    match readoutFold d spacer (N_readout_per_probe / 2) 0 probe_on_bits
        ([], row.target_sequence) with
    | none => none
    | some st =>
      some { shift := row.shift
             target_sequence := row.target_sequence
             readout_names := st.1
             probe_barcode := on_bits_to_barcodes probe_on_bits barcode_length
             target_readout_sequence := st.2 }

/-- The probe loop over the sorted table; probe number `i` (in sorted order)
uses the oracle `rng i`. -/
def processRows (d : List (Int × List Char × List Char)) (on_bits : List Int)
    (barcode_length N_readout_per_probe : Nat) (spacer : List Char)
    (each_probe_1_on_bit : Bool) (rng : Nat → Nat → Nat) :
    Nat → List Probe → Option (List ProbeOut)
  | _, [] => some []
  | i, row :: rest =>
    match processProbe d on_bits barcode_length N_readout_per_probe spacer
        each_probe_1_on_bit (rng i) row with
    | none => none
    | some p =>
      (processRows d on_bits barcode_length N_readout_per_probe spacer
        each_probe_1_on_bit rng (i + 1) rest).map (fun ps => p :: ps)

/-- `add_readout_seqs_to_probes_of_transcript_random`: the single-transcript
assigner.  Builds the on-bit dictionary, sorts the probe table by `shift`
(pandas default quicksort), then runs the probe loop. -/
def add_readout_seqs_to_probes_of_transcript_random (probe_table : List Probe)
    (readout_seqs : List ReadoutSeq) (barcode : List Char)
    (N_readout_per_probe : Nat) (spacer : List Char)
    (each_probe_1_on_bit : Bool) (rng : Nat → Nat → Nat) : Option (List ProbeOut) :=
  match buildOnBitDict readout_seqs (barcode_to_on_bits barcode) with
  | none => none
  | some d =>
    processRows d (barcode_to_on_bits barcode) barcode.length N_readout_per_probe
      spacer each_probe_1_on_bit rng 0 (sort_values_shift probe_table)

/-! ### The batch dispatcher -/
/-- The per-gene barcode lookup
`barcode_table[barcode_table[gene_id_key] == gk].iloc[0]['barcode_str']`:
first matching row, raising when there is none. -/
def lookupBarcode (barcode_table : List BcRow) (gene_id_key : BcRow → List Char)
    (gk : List Char) : Option (List Char) :=
  (barcode_table.find? (fun row => gene_id_key row == gk)).map
    (fun row => row.barcode_str)

/-- One gene's transcripts dispatched in order; task number `i` onwards.
Returns the next task number and the updated transcript map. -/
def dispatchTranscripts (readout_seqs : List ReadoutSeq)
    (N_readout_per_probe : Nat) (spacer : List Char) (each_probe_1_on_bit : Bool)
    (rngs : Nat → Nat → Nat → Nat) (barcode : List Char) :
    Nat → List (List Char × List Probe) →
    Option (Nat × List (List Char × List ProbeOut))
  | i, [] => some (i, [])
  | i, (tk, tbl) :: rest =>
    match add_readout_seqs_to_probes_of_transcript_random tbl readout_seqs barcode
        N_readout_per_probe spacer each_probe_1_on_bit (rngs i) with
    | none => none
    | some tbl' =>
      (dispatchTranscripts readout_seqs N_readout_per_probe spacer
          each_probe_1_on_bit rngs barcode (i + 1) rest).map
        (fun s => (s.1, (tk, tbl') :: s.2))

/-- The gene loop of the dispatcher: resolve each gene's barcode, dispatch its
transcripts, and reassemble under the same keys. -/
def dispatchGenes (readout_seqs : List ReadoutSeq) (barcode_table : List BcRow)
    (N_readout_per_probe : Nat) (spacer : List Char)
    (gene_id_key : BcRow → List Char) (each_probe_1_on_bit : Bool)
    (rngs : Nat → Nat → Nat → Nat) :
    Nat → List (List Char × List (List Char × List Probe)) →
    Option (List (List Char × List (List Char × List ProbeOut)))
  | _, [] => some []
  | i, (gk, transcripts) :: rest =>
    match lookupBarcode barcode_table gene_id_key gk with
    | none => none
    | some bc =>
      match dispatchTranscripts readout_seqs N_readout_per_probe spacer
          each_probe_1_on_bit rngs bc i transcripts with
      | none => none
      | some s =>
        (dispatchGenes readout_seqs barcode_table N_readout_per_probe spacer
            gene_id_key each_probe_1_on_bit rngs s.1 rest).map
          (fun rest' => (gk, s.2) :: rest')

/-- `add_readout_seqs_to_probes_random`: the batch dispatcher.  Tasks are
numbered in the order the argument list is built (genes in key order,
transcripts in key order within a gene); `Pool.starmap` returns results in
that same task order, which the write-back loop pairs with the saved
`(gene, transcript)` keys.  Task number `i` runs with the oracle `rngs i`.
A failed barcode lookup or a raising worker aborts the whole batch. -/
def add_readout_seqs_to_probes_random
    (probe_dict : List (List Char × List (List Char × List Probe)))
    (readout_seqs : List ReadoutSeq) (barcode_table : List BcRow)
    (N_readout_per_probe : Nat) (spacer : List Char)
    (gene_id_key : BcRow → List Char) (each_probe_1_on_bit : Bool)
    (rngs : Nat → Nat → Nat → Nat) :
    Option (List (List Char × List (List Char × List ProbeOut))) :=
  dispatchGenes readout_seqs barcode_table N_readout_per_probe spacer gene_id_key
    each_probe_1_on_bit rngs 0 probe_dict

/-! ### Spec-side comparison helpers

These three definitions follow the words of the specification (not the
source); the claims compare the assigner's output against them. -/
/-- Modelled from the spec: the colon-joined (colon-separated) readout ids
claimed for `readout_names`. -/
def spec_colon_join (ids : List (List Char)) : List Char :=
  List.intercalate [':'] ids

/-- Modelled from the spec: the left-group readout sequences each followed by
the spacer, in reverse insertion order. -/
def spec_left_assembly (ros : List (List Char × List Char)) (spacer : List Char)
    (n_left : Nat) : List Char :=
  (((ros.take n_left).map (fun p => p.2 ++ spacer)).reverse).flatten

/-- Modelled from the spec: the right-group readout sequences each preceded by
the spacer, in forward insertion order. -/
def spec_right_assembly (ros : List (List Char × List Char)) (spacer : List Char)
    (n_left : Nat) : List Char :=
  ((ros.drop n_left).map (fun p => spacer ++ p.2)).flatten

/-! ### Lemmas about the assembly fold and the probe loop -/
/-- Default rows used by positional (`getD`) statements; every use is guarded
by an in-range index. -/
def probe0 : Probe := { shift := 0, target_sequence := [] }

/-- Default output row for positional statements. -/
def probeOut0 : ProbeOut :=
  { shift := 0, target_sequence := [], readout_names := []
    probe_barcode := [], target_readout_sequence := [] }

/-- Resolve every sampled on-bit through the dictionary (the sequence of
`on_bit_dict[ob]` reads performed by the attachment loop). -/
def lookupAll (d : List (Int × List Char × List Char)) :
    List Int → Option (List (List Char × List Char))
  | [] => some []
  | ob :: rest =>
    match dictGet d ob, lookupAll d rest with
    | some p, some ps => some (p :: ps)
    | _, _ => none

/-! ### Concrete inputs used by witnesses and counterexamples -/
/-- One probe targeting "ACGT" at shift 0. -/
def wPT : List Probe := [{ shift := 0, target_sequence := ['A', 'C', 'G', 'T'] }]

/-- Readout table with ids A..D on bits 0..3. -/
def wRS : List ReadoutSeq :=
  [⟨['A'], ['a', 'a'], 0⟩, ⟨['B'], ['b', 'b'], 1⟩,
    ⟨['C'], ['c', 'c'], 2⟩, ⟨['D'], ['d', 'd'], 3⟩]

/-- The all-zero oracle. -/
def wRNG : Nat → Nat → Nat := fun _ _ => 0

/-- The output of the assigner on `wPT`, `wRS`, barcode "1010",
two readouts per probe, spacer "TT", no forced single bit, oracle `wRNG`. -/
def wOUT : List ProbeOut :=
  [⟨0, ['A', 'C', 'G', 'T'], ['A', ':', ':', 'C'], ['1', '0', '1', '0'],
    ['a', 'a', 'T', 'T', 'A', 'C', 'G', 'T', 'T', 'T', 'c', 'c']⟩]

/-! ### Infrastructure for the sort correctness proof -/
/-- The effect envelope of an in-place sorting pass over the segment
`[pl, pr]`: the index array is permuted as a whole and untouched outside the
segment. -/
def SegOp (pl pr : Nat) (t t' : List Nat) : Prop :=
  t'.Perm t ∧ ∀ k, (k < pl ∨ pr < k) → t'.getD k 0 = t.getD k 0

/-- Keys are sorted on the segment `[pl, pr]` (transitive form). -/
def SegSorted (v : List Int) (t : List Nat) (pl pr : Nat) : Prop :=
  ∀ j k, pl ≤ j → j ≤ k → k ≤ pr → keyAt v t j ≤ keyAt v t k

/-- Keys are sorted on the segment `[pl, pr]` (adjacent form). -/
def SegSortedAdj (v : List Int) (t : List Nat) (pl pr : Nat) : Prop :=
  ∀ k, pl ≤ k → k < pr → keyAt v t k ≤ keyAt v t (k + 1)

/-- The slice of positions `[pl, pr]`. -/
def seg (t : List Nat) (pl pr : Nat) : List Nat :=
  (t.drop pl).take (pr + 1 - pl)

/-- The max-heap relation at node `k` of the one-based segment view
`a[k] = t[base + k - 1]` of length `n`: both children (when present) carry
keys at most the parent's. -/
def HeapAt (v : List Int) (t : List Nat) (base n k : Nat) : Prop :=
  (2 * k ≤ n → keyAt v t (base + 2 * k - 1) ≤ keyAt v t (base + k - 1)) ∧
  (2 * k + 1 ≤ n → keyAt v t (base + 2 * k) ≤ keyAt v t (base + k - 1))

def cexPT : List Probe :=
  (List.range 17).map (fun i => { shift := 0, target_sequence := [Char.ofNat (65 + i)] })

/-! ### Lemmas about the bit/barcode codec -/
lemma on_bits_to_barcodes_length (on_bits : List Int) (L : Nat) :
    (on_bits_to_barcodes on_bits L).length = L := by
  unfold on_bits_to_barcodes
  rw [List.length_map, List.length_range]

lemma on_bits_to_barcodes_getD (on_bits : List Int) (L i : Nat) (c : Char)
    (h : i < L) :
    (on_bits_to_barcodes on_bits L).getD i c =
      if Int.ofNat i ∈ on_bits then '1' else '0' := by
  unfold on_bits_to_barcodes
  rw [List.getD_eq_getElem?_getD, List.getElem?_map, List.getElem?_range h]
  rfl

lemma mem_barcode_to_on_bits (b : List Char) (x : Int) :
    x ∈ barcode_to_on_bits b ↔
      ∃ i : Nat, i < b.length ∧ b.getD i ' ' = '1' ∧ x = Int.ofNat i := by
  unfold barcode_to_on_bits
  simp only [List.mem_map, List.mem_filter, List.mem_range, beq_iff_eq]
  constructor
  · rintro ⟨i, ⟨hi, hc⟩, rfl⟩
    exact ⟨i, hi, hc, rfl⟩
  · rintro ⟨i, hi, hc, rfl⟩
    exact ⟨i, ⟨hi, hc⟩, rfl⟩

lemma ofNat_mem_barcode_to_on_bits (b : List Char) (i : Nat) :
    Int.ofNat i ∈ barcode_to_on_bits b ↔ i < b.length ∧ b.getD i ' ' = '1' := by
  rw [mem_barcode_to_on_bits]
  constructor
  · rintro ⟨j, hj, hc, hji⟩
    obtain rfl : j = i := Int.ofNat.inj hji.symm
    exact ⟨hj, hc⟩
  · rintro ⟨hi, hc⟩
    exact ⟨i, hi, hc, rfl⟩

lemma barcode_to_on_bits_nodup (b : List Char) : (barcode_to_on_bits b).Nodup := by
  refine List.Nodup.map (fun x y h => Int.ofNat.inj h) ?_
  exact List.Nodup.filter _ (List.nodup_range _)

lemma barcode_round_trip (b : List Char) (hb : ∀ c ∈ b, c = '0' ∨ c = '1') :
    on_bits_to_barcodes (barcode_to_on_bits b) b.length = b := by
  apply List.ext_getElem (on_bits_to_barcodes_length _ _)
  intro i h1 h2
  have hgd : (on_bits_to_barcodes (barcode_to_on_bits b) b.length).getD i ' ' =
      if Int.ofNat i ∈ barcode_to_on_bits b then '1' else '0' :=
    on_bits_to_barcodes_getD _ _ _ _ h2
  rw [List.getD_eq_getElem _ _ h1] at hgd
  rw [hgd]
  rcases hb b[i] (List.getElem_mem h2) with h0 | h1'
  · rw [h0, if_neg]
    intro hm
    have hc := ((ofNat_mem_barcode_to_on_bits b i).1 hm).2
    rw [List.getD_eq_getElem _ _ h2, h0] at hc
    exact absurd hc (by decide)
  · rw [h1', if_pos]
    exact (ofNat_mem_barcode_to_on_bits b i).2
      ⟨h2, by rw [List.getD_eq_getElem _ _ h2, h1']⟩

lemma on_bits_to_barcodes_congr (ob₁ ob₂ : List Int) (L : Nat)
    (h : ∀ x : Int, x ∈ ob₁ ↔ x ∈ ob₂) :
    on_bits_to_barcodes ob₁ L = on_bits_to_barcodes ob₂ L := by
  unfold on_bits_to_barcodes
  apply List.map_congr_left
  intro i _
  by_cases hm : Int.ofNat i ∈ ob₁
  · rw [if_pos hm, if_pos ((h _).1 hm)]
  · rw [if_neg hm, if_neg (fun hc => hm ((h _).2 hc))]

/-- C1: for every barcode string over the alphabet containing only the
characters '0' and '1', converting it to its on-bit list and back with the
full length is the identity. -/
theorem claim_C1_round_trip (b : List Char) (hb : ∀ c ∈ b, c = '0' ∨ c = '1') :
    on_bits_to_barcodes (barcode_to_on_bits b) b.length = b :=
  barcode_round_trip b hb

theorem claim_C1_round_trip_witness :
    (∀ c ∈ ['1', '0', '1', '1'], c = '0' ∨ c = '1') ∧
      on_bits_to_barcodes (barcode_to_on_bits ['1', '0', '1', '1'])
        (['1', '0', '1', '1'].length) = ['1', '0', '1', '1'] :=
  ⟨by decide, claim_C1_round_trip ['1', '0', '1', '1'] (by decide)⟩

/-- C8: for every integer list `on_bits` (duplicates, negative values and
values at or above the length allowed) and every length `L`,
`on_bits_to_barcodes on_bits L` has length exactly `L`, carries '1' at
position `i < L` exactly when the integer `i` is a member of `on_bits`
(so out-of-range and negative members never contribute), and depends only on
the membership of `on_bits`, not on order or multiplicity.  The function is
total, so no input causes a failure. -/
theorem claim_C8_on_bits_to_barcodes_spec (on_bits : List Int) (L : Nat) :
    (on_bits_to_barcodes on_bits L).length = L ∧
      (∀ i : Nat, i < L →
        ((on_bits_to_barcodes on_bits L).getD i '0' = '1' ↔
          Int.ofNat i ∈ on_bits)) ∧
      (∀ ob₂ : List Int, (∀ x : Int, x ∈ on_bits ↔ x ∈ ob₂) →
        on_bits_to_barcodes on_bits L = on_bits_to_barcodes ob₂ L) := by
  refine ⟨on_bits_to_barcodes_length _ _, ?_,
    fun ob₂ h => on_bits_to_barcodes_congr _ ob₂ _ h⟩
  intro i hi
  rw [on_bits_to_barcodes_getD _ _ _ _ hi]
  by_cases hm : Int.ofNat i ∈ on_bits
  · rw [if_pos hm]
    exact ⟨fun _ => hm, fun _ => rfl⟩
  · rw [if_neg hm]
    exact ⟨fun hc => absurd hc (by decide), fun hc => absurd hc hm⟩

theorem claim_C8_on_bits_to_barcodes_spec_witness :
    (on_bits_to_barcodes [2, 0, 2, -1, 9] 4).length = 4 ∧
      ((on_bits_to_barcodes [2, 0, 2, -1, 9] 4).getD 2 '0' = '1' ↔
        Int.ofNat 2 ∈ [2, 0, 2, -1, 9]) :=
  ⟨(claim_C8_on_bits_to_barcodes_spec [2, 0, 2, -1, 9] 4).1,
    (claim_C8_on_bits_to_barcodes_spec [2, 0, 2, -1, 9] 4).2.1 2 (by decide)⟩

/-! ### Lemmas about the random draws -/
lemma perm_getD_cons_eraseIdx (a : List Int) (i : Nat) (hi : i < a.length) :
    (a.getD i 0 :: a.eraseIdx i).Perm a := by
  rw [List.getD_eq_getElem _ _ hi, List.eraseIdx_eq_take_drop_succ]
  have hdrop : a.drop i = a[i] :: a.drop (i + 1) := List.drop_eq_getElem_cons hi
  have hsplit : a.take i ++ a[i] :: a.drop (i + 1) = a := by
    rw [← hdrop, List.take_append_drop]
  conv_rhs => rw [← hsplit]
  exact List.perm_middle.symm

lemma npDrawNoReplace_length (r : Nat → Nat) (k : Nat) :
    ∀ (a : List Int) (step : Nat), k ≤ a.length →
      (npDrawNoReplace r step k a).length = k := by
  induction k with
  | zero => intro a step _; rfl
  | succ k ih =>
    intro a step hk
    have hlen : 0 < a.length := Nat.lt_of_lt_of_le (Nat.succ_pos k) hk
    have hidx : r step % a.length < a.length := Nat.mod_lt _ hlen
    have herase : (a.eraseIdx (r step % a.length)).length = a.length - 1 :=
      List.length_eraseIdx_of_lt hidx
    rw [npDrawNoReplace, List.length_cons, ih]
    rw [herase]
    omega

lemma npDrawNoReplace_subset (r : Nat → Nat) (k : Nat) :
    ∀ (a : List Int) (step : Nat), k ≤ a.length →
      ∀ x ∈ npDrawNoReplace r step k a, x ∈ a := by
  induction k with
  | zero => intro a step _ x hx; exact absurd hx (List.not_mem_nil x)
  | succ k ih =>
    intro a step hk x hx
    have hlen : 0 < a.length := Nat.lt_of_lt_of_le (Nat.succ_pos k) hk
    have hidx : r step % a.length < a.length := Nat.mod_lt _ hlen
    rw [npDrawNoReplace, List.mem_cons] at hx
    rcases hx with rfl | hx
    · rw [List.getD_eq_getElem _ _ hidx]
      exact List.getElem_mem hidx
    · have herase : (a.eraseIdx (r step % a.length)).length = a.length - 1 :=
        List.length_eraseIdx_of_lt hidx
      have hk' : k ≤ (a.eraseIdx (r step % a.length)).length := by rw [herase]; omega
      exact (List.eraseIdx_sublist a _).mem (ih _ _ hk' x hx)

lemma npDrawNoReplace_nodup (r : Nat → Nat) (k : Nat) :
    ∀ (a : List Int) (step : Nat), k ≤ a.length → a.Nodup →
      (npDrawNoReplace r step k a).Nodup := by
  induction k with
  | zero => intro a step _ _; exact List.nodup_nil
  | succ k ih =>
    intro a step hk ha
    have hlen : 0 < a.length := Nat.lt_of_lt_of_le (Nat.succ_pos k) hk
    have hidx : r step % a.length < a.length := Nat.mod_lt _ hlen
    have herase : (a.eraseIdx (r step % a.length)).length = a.length - 1 :=
      List.length_eraseIdx_of_lt hidx
    have hk' : k ≤ (a.eraseIdx (r step % a.length)).length := by rw [herase]; omega
    have hcons : (a.getD (r step % a.length) 0 ::
        a.eraseIdx (r step % a.length)).Nodup :=
      (perm_getD_cons_eraseIdx a _ hidx).nodup_iff.2 ha
    rw [npDrawNoReplace, List.nodup_cons]
    exact ⟨fun hmem => (List.nodup_cons.1 hcons).1
        (npDrawNoReplace_subset r k _ _ hk' _ hmem),
      ih _ _ hk' ((List.nodup_cons.1 hcons).2)⟩

lemma npDrawNoReplace_perm (r : Nat → Nat) (k : Nat) :
    ∀ (a : List Int) (step : Nat), a.length = k →
      (npDrawNoReplace r step k a).Perm a := by
  induction k with
  | zero =>
    intro a step hk
    rw [List.length_eq_zero] at hk
    subst hk
    rfl
  | succ k ih =>
    intro a step hk
    have hidx : r step % a.length < a.length := Nat.mod_lt _ (by omega)
    have herase : (a.eraseIdx (r step % a.length)).length = a.length - 1 :=
      List.length_eraseIdx_of_lt hidx
    rw [npDrawNoReplace]
    refine List.Perm.trans ?_ (perm_getD_cons_eraseIdx a _ hidx)
    exact List.Perm.cons _ (ih _ _ (by omega))

lemma choose_on_bits_each (on_bits : List Int) (N : Nat) (r : Nat → Nat)
    (hnb : on_bits ≠ []) :
    ∃ b ∈ on_bits, choose_on_bits on_bits N true r = some (List.replicate N b) := by
  have hlen : 0 < on_bits.length := List.length_pos.2 hnb
  have hidx : r 0 % on_bits.length < on_bits.length := Nat.mod_lt _ hlen
  refine ⟨on_bits.getD (r 0 % on_bits.length) 0, ?_, ?_⟩
  · rw [List.getD_eq_getElem _ _ hidx]
    exact List.getElem_mem hidx
  · rw [choose_on_bits, if_pos rfl, npChoice1, if_neg (by omega)]
    rfl

lemma choose_on_bits_no_replace (on_bits : List Int) (N : Nat) (r : Nat → Nat)
    (hN : N ≤ on_bits.length) :
    choose_on_bits on_bits N false r = some (npDrawNoReplace r 0 N on_bits) ∧
      (npDrawNoReplace r 0 N on_bits).length = N ∧
      (∀ x ∈ npDrawNoReplace r 0 N on_bits, x ∈ on_bits) ∧
      (on_bits.Nodup → (npDrawNoReplace r 0 N on_bits).Nodup) := by
  refine ⟨?_, npDrawNoReplace_length r N on_bits 0 hN,
    npDrawNoReplace_subset r N on_bits 0 hN,
    fun hnd => npDrawNoReplace_nodup r N on_bits 0 hN hnd⟩
  rw [choose_on_bits, if_neg (by simp), if_pos hN, npChoiceNoReplace,
    if_neg (by omega)]

lemma choose_on_bits_empty_none (N : Nat) (each : Bool) (r : Nat → Nat)
    (hN : 1 ≤ N) : choose_on_bits [] N each r = none := by
  cases each with
  | true => simp [choose_on_bits, npChoice1]
  | false =>
    have h1 : ¬ (N ≤ ([] : List Int).length) := by simp; omega
    rw [choose_on_bits, if_neg (by simp), if_neg h1, npChoiceReplace,
      if_pos (by simp)]

lemma choose_on_bits_some_length (on_bits : List Int) (N : Nat) (each : Bool)
    (r : Nat → Nat) (s : List Int)
    (h : choose_on_bits on_bits N each r = some s) : s.length = N := by
  rw [choose_on_bits] at h
  by_cases he : each = true
  · rw [if_pos he, npChoice1] at h
    by_cases h0 : on_bits.length = 0
    · rw [if_pos h0] at h
      exact absurd h (by simp)
    · rw [if_neg h0] at h
      obtain rfl : List.replicate N (on_bits.getD (r 0 % on_bits.length) 0) = s :=
        Option.some.inj (by simpa using h)
      exact List.length_replicate _ _
  · rw [if_neg he] at h
    by_cases hle : N ≤ on_bits.length
    · rw [if_pos hle, npChoiceNoReplace, if_neg (by omega)] at h
      obtain rfl := Option.some.inj h
      exact npDrawNoReplace_length r N on_bits 0 hle
    · rw [if_neg hle, npChoiceReplace] at h
      by_cases h0 : on_bits.length = 0
      · rw [if_pos h0] at h; exact absurd h (by simp)
      · rw [if_neg h0] at h
        obtain rfl := Option.some.inj h
        rw [List.length_map, List.length_range]

/-- A filter of a range whose predicate holds exactly at `x` is `[x]`. -/
lemma filter_range_eq_single (L x : Nat) (hx : x < L) (p : Nat → Bool)
    (hp : ∀ i, i < L → (p i = true ↔ i = x)) :
    (List.range L).filter p = [x] := by
  induction L with
  | zero => omega
  | succ L ih =>
    rw [List.range_succ, List.filter_append]
    by_cases hxL : x = L
    · subst hxL
      rw [List.filter_eq_nil_iff.2, List.nil_append]
      · simp only [List.filter, (hp x (by omega)).2 rfl]
      · intro a ha
        rw [List.mem_range] at ha
        intro hpa
        exact absurd ((hp a (by omega)).1 hpa) (by omega)
    · rw [ih (by omega) (fun i hi => hp i (by omega))]
      have hL : p L = false := by
        by_cases hb : p L = true
        · exact absurd ((hp L (by omega)).1 hb) (fun h => hxL h.symm)
        · exact Bool.not_eq_true _ ▸ Bool.of_not_eq_true hb
      simp [List.filter, hL]

/-- A probe barcode built from a nonempty replication of one valid on-bit has
exactly one '1'. -/
lemma count_one_of_replicate (b : Int) (bc : List Char) (N : Nat) (hN : 1 ≤ N)
    (hb : b ∈ barcode_to_on_bits bc) :
    (on_bits_to_barcodes (List.replicate N b) bc.length).count '1' = 1 := by
  obtain ⟨i₀, hi₀, -, rfl⟩ := (mem_barcode_to_on_bits bc b).1 hb
  unfold on_bits_to_barcodes
  rw [List.count_eq_countP, List.countP_map, List.countP_eq_length_filter]
  have : (List.range bc.length).filter
      ((fun a => a == '1') ∘ fun i => if Int.ofNat i ∈ List.replicate N (Int.ofNat i₀) then '1' else '0') = [i₀] := by
    apply filter_range_eq_single _ _ hi₀
    intro i hi
    simp only [Function.comp_apply, List.mem_replicate]
    constructor
    · intro h
      by_cases hc : N ≠ 0 ∧ Int.ofNat i = Int.ofNat i₀
      · exact Int.ofNat.inj hc.2
      · rw [if_neg hc] at h
        exact absurd h (by decide)
    · rintro rfl
      rw [if_pos ⟨by omega, rfl⟩]
      rfl
  rw [this, List.length_cons, List.length_nil]

lemma lookupAll_length (d : List (Int × List Char × List Char)) :
    ∀ (l : List Int) (ros : List (List Char × List Char)),
      lookupAll d l = some ros → ros.length = l.length := by
  intro l
  induction l with
  | nil =>
    intro ros h
    obtain rfl := Option.some.inj h.symm
    rfl
  | cons ob rest ih =>
    intro ros h
    rw [lookupAll] at h
    cases hd : dictGet d ob with
    | none => rw [hd] at h; exact absurd h (by simp)
    | some p =>
      cases hr : lookupAll d rest with
      | none => rw [hd, hr] at h; exact absurd h (by simp)
      | some ps =>
        rw [hd, hr] at h
        obtain rfl := Option.some.inj h.symm
        rw [List.length_cons, ih ps hr, List.length_cons]

lemma lookupAll_append (d : List (Int × List Char × List Char)) :
    ∀ (l₁ l₂ : List Int) (ros : List (List Char × List Char)),
      lookupAll d (l₁ ++ l₂) = some ros →
      ∃ r₁ r₂, lookupAll d l₁ = some r₁ ∧ lookupAll d l₂ = some r₂ ∧
        ros = r₁ ++ r₂ := by
  intro l₁
  induction l₁ with
  | nil =>
    intro l₂ ros h
    exact ⟨[], ros, rfl, h, rfl⟩
  | cons ob rest ih =>
    intro l₂ ros h
    rw [List.cons_append, lookupAll] at h
    cases hd : dictGet d ob with
    | none => rw [hd] at h; exact absurd h (by simp)
    | some p =>
      cases hr : lookupAll d (rest ++ l₂) with
      | none => rw [hd, hr] at h; exact absurd h (by simp)
      | some ps =>
        rw [hd, hr] at h
        obtain rfl := Option.some.inj h.symm
        obtain ⟨r₁, r₂, h1, h2, rfl⟩ := ih l₂ ps hr
        refine ⟨p :: r₁, r₂, ?_, h2, rfl⟩
        rw [lookupAll, hd, h1]

lemma readoutFold_all_left (d : List (Int × List Char × List Char))
    (sp : List Char) (nl : Nat) :
    ∀ (pobs : List Int) (j : Nat) (st : List Char × List Char)
      (ros : List (List Char × List Char)),
      lookupAll d pobs = some ros → j + pobs.length ≤ nl →
      readoutFold d sp nl j pobs st =
        some ((ros.reverse.map (fun p => p.1 ++ [':'])).flatten ++ st.1,
          (ros.reverse.map (fun p => p.2 ++ sp)).flatten ++ st.2) := by
  intro pobs
  induction pobs with
  | nil =>
    intro j st ros h _
    obtain rfl := Option.some.inj h.symm
    simp [readoutFold]
  | cons ob rest ih =>
    intro j st ros h hj
    rw [lookupAll] at h
    cases hd : dictGet d ob with
    | none => rw [hd] at h; exact absurd h (by simp)
    | some p =>
      cases hr : lookupAll d rest with
      | none => rw [hd, hr] at h; exact absurd h (by simp)
      | some ps =>
        rw [hd, hr] at h
        obtain rfl := Option.some.inj h.symm
        rw [List.length_cons] at hj
        simp only [readoutFold, hd]
        rw [if_pos (by omega : j < nl), ih (j + 1) _ ps hr (by omega)]
        simp only [List.reverse_cons, List.map_append, List.flatten_append,
          List.map_cons, List.flatten_cons, List.map_nil, List.flatten_nil,
          List.append_nil, List.nil_append, List.append_assoc,
          List.cons_append, List.singleton_append]

lemma readoutFold_all_right (d : List (Int × List Char × List Char))
    (sp : List Char) (nl : Nat) :
    ∀ (pobs : List Int) (j : Nat) (st : List Char × List Char)
      (ros : List (List Char × List Char)),
      lookupAll d pobs = some ros → nl ≤ j →
      readoutFold d sp nl j pobs st =
        some (st.1 ++ (ros.map (fun p => ':' :: p.1)).flatten,
          st.2 ++ (ros.map (fun p => sp ++ p.2)).flatten) := by
  intro pobs
  induction pobs with
  | nil =>
    intro j st ros h _
    obtain rfl := Option.some.inj h.symm
    simp [readoutFold]
  | cons ob rest ih =>
    intro j st ros h hj
    rw [lookupAll] at h
    cases hd : dictGet d ob with
    | none => rw [hd] at h; exact absurd h (by simp)
    | some p =>
      cases hr : lookupAll d rest with
      | none => rw [hd, hr] at h; exact absurd h (by simp)
      | some ps =>
        rw [hd, hr] at h
        obtain rfl := Option.some.inj h.symm
        simp only [readoutFold, hd]
        rw [if_neg (by omega : ¬ j < nl), ih (j + 1) _ ps hr (by omega)]
        simp only [List.map_cons, List.flatten_cons, List.append_assoc,
          List.cons_append]

lemma readoutFold_append (d : List (Int × List Char × List Char))
    (sp : List Char) (nl : Nat) :
    ∀ (l₁ l₂ : List Int) (j : Nat) (st st' : List Char × List Char),
      readoutFold d sp nl j l₁ st = some st' →
      readoutFold d sp nl j (l₁ ++ l₂) st =
        readoutFold d sp nl (j + l₁.length) l₂ st' := by
  intro l₁
  induction l₁ with
  | nil =>
    intro l₂ j st st' h
    obtain rfl := Option.some.inj h.symm
    rw [List.nil_append, List.length_nil, Nat.add_zero]
  | cons ob rest ih =>
    intro l₂ j st st' h
    rw [readoutFold] at h
    cases hd : dictGet d ob with
    | none => rw [hd] at h; exact absurd h (by simp)
    | some p =>
      rw [hd] at h
      rw [List.cons_append]
      simp only [readoutFold, hd]
      rw [ih l₂ (j + 1) _ st' h, List.length_cons]
      ring_nf

/-- The closed form of the attachment loop: left samples are prepended in
reverse order (each name followed by ':' and each sequence followed by the
spacer), right samples are appended in forward order (each name preceded by
':' and each sequence preceded by the spacer). -/
lemma readoutFold_closed (d : List (Int × List Char × List Char))
    (sp : List Char) (nl : Nat) (pobs : List Int) (st : List Char × List Char)
    (ros : List (List Char × List Char))
    (hros : lookupAll d pobs = some ros) (hnl : nl ≤ pobs.length) :
    readoutFold d sp nl 0 pobs st =
      some
        (((ros.take nl).reverse.map (fun p => p.1 ++ [':'])).flatten ++ st.1 ++
            ((ros.drop nl).map (fun p => ':' :: p.1)).flatten,
          ((ros.take nl).reverse.map (fun p => p.2 ++ sp)).flatten ++ st.2 ++
            ((ros.drop nl).map (fun p => sp ++ p.2)).flatten) := by
  have hsplit : pobs = pobs.take nl ++ pobs.drop nl := (List.take_append_drop nl pobs).symm
  rw [hsplit] at hros
  obtain ⟨r₁, r₂, h1, h2, rfl⟩ := lookupAll_append d _ _ _ hros
  have hlen1 : r₁.length = nl := by
    rw [lookupAll_length d _ _ h1, List.length_take]
    omega
  have hlefts : readoutFold d sp nl 0 (pobs.take nl) st =
      some ((r₁.reverse.map (fun p => p.1 ++ [':'])).flatten ++ st.1,
        (r₁.reverse.map (fun p => p.2 ++ sp)).flatten ++ st.2) := by
    apply readoutFold_all_left d sp nl _ 0 st r₁ h1
    rw [List.length_take]
    omega
  have hlen1' : (pobs.take nl).length = nl := by
    rw [List.length_take]
    omega
  conv_lhs => rw [hsplit]
  rw [readoutFold_append d sp nl _ _ 0 st _ hlefts, Nat.zero_add, hlen1',
    readoutFold_all_right d sp nl _ nl _ r₂ h2 (le_refl nl)]
  have htake : (r₁ ++ r₂).take nl = r₁ := by
    rw [List.take_append_of_le_length (by omega), List.take_of_length_le (by omega)]
  have hdrop : (r₁ ++ r₂).drop nl = r₂ := by
    rw [List.drop_append_of_le_length (by omega), List.drop_of_length_le (by omega),
      List.nil_append]
  rw [htake, hdrop]

lemma processProbe_some (d : List (Int × List Char × List Char))
    (on_bits : List Int) (L N : Nat) (sp : List Char) (each : Bool)
    (r : Nat → Nat) (row : Probe) (p : ProbeOut)
    (h : processProbe d on_bits L N sp each r row = some p) :
    ∃ pobs st, choose_on_bits on_bits N each r = some pobs ∧
      readoutFold d sp (N / 2) 0 pobs ([], row.target_sequence) = some st ∧
      p = ⟨row.shift, row.target_sequence, st.1, on_bits_to_barcodes pobs L,
        st.2⟩ := by
  rw [processProbe] at h
  cases hc : choose_on_bits on_bits N each r with
  | none => rw [hc] at h; exact absurd h (by simp)
  | some pobs =>
    simp only [hc] at h
    cases hf : readoutFold d sp (N / 2) 0 pobs ([], row.target_sequence) with
    | none =>
      simp only [hf] at h
      exact absurd h (by simp)
    | some st =>
      simp only [hf] at h
      exact ⟨pobs, st, rfl, hf, (Option.some.inj (by exact_mod_cast h)).symm⟩

lemma processProbe_none_of_choose_none (d : List (Int × List Char × List Char))
    (on_bits : List Int) (L N : Nat) (sp : List Char) (each : Bool)
    (r : Nat → Nat) (row : Probe)
    (h : choose_on_bits on_bits N each r = none) :
    processProbe d on_bits L N sp each r row = none := by
  rw [processProbe, h]

lemma processRows_length (d : List (Int × List Char × List Char))
    (on_bits : List Int) (L N : Nat) (sp : List Char) (each : Bool)
    (rng : Nat → Nat → Nat) :
    ∀ (l : List Probe) (i : Nat) (out : List ProbeOut),
      processRows d on_bits L N sp each rng i l = some out →
      out.length = l.length := by
  intro l
  induction l with
  | nil =>
    intro i out h
    obtain rfl := Option.some.inj h.symm
    rfl
  | cons row rest ih =>
    intro i out h
    rw [processRows] at h
    cases hp : processProbe d on_bits L N sp each (rng i) row with
    | none => rw [hp] at h; exact absurd h (by simp)
    | some p =>
      rw [hp] at h
      cases hr : processRows d on_bits L N sp each rng (i + 1) rest with
      | none => rw [hr] at h; exact absurd h (by simp)
      | some ps =>
        rw [hr] at h
        obtain rfl := Option.some.inj h.symm
        rw [List.length_cons, List.length_cons, ih _ _ hr]

lemma processRows_mem (d : List (Int × List Char × List Char))
    (on_bits : List Int) (L N : Nat) (sp : List Char) (each : Bool)
    (rng : Nat → Nat → Nat) :
    ∀ (l : List Probe) (i : Nat) (out : List ProbeOut),
      processRows d on_bits L N sp each rng i l = some out →
      ∀ p ∈ out, ∃ (j : Nat) (row : Probe),
        processProbe d on_bits L N sp each (rng j) row = some p := by
  intro l
  induction l with
  | nil =>
    intro i out h p hp
    obtain rfl := Option.some.inj h.symm
    exact absurd hp (List.not_mem_nil p)
  | cons row rest ih =>
    intro i out h p hp
    rw [processRows] at h
    cases hq : processProbe d on_bits L N sp each (rng i) row with
    | none => rw [hq] at h; exact absurd h (by simp)
    | some q =>
      rw [hq] at h
      cases hr : processRows d on_bits L N sp each rng (i + 1) rest with
      | none => rw [hr] at h; exact absurd h (by simp)
      | some ps =>
        rw [hr] at h
        obtain rfl := Option.some.inj h.symm
        rcases List.mem_cons.1 hp with rfl | hp'
        · exact ⟨i, row, hq⟩
        · exact ih _ _ hr p hp'

lemma processRows_getD (d : List (Int × List Char × List Char))
    (on_bits : List Int) (L N : Nat) (sp : List Char) (each : Bool)
    (rng : Nat → Nat → Nat) :
    ∀ (l : List Probe) (i : Nat) (out : List ProbeOut),
      processRows d on_bits L N sp each rng i l = some out →
      ∀ k, k < l.length →
        processProbe d on_bits L N sp each (rng (i + k)) (l.getD k probe0) =
          some (out.getD k probeOut0) := by
  intro l
  induction l with
  | nil =>
    intro i out _ k hk
    exact absurd hk (by simp)
  | cons row rest ih =>
    intro i out h k hk
    rw [processRows] at h
    cases hq : processProbe d on_bits L N sp each (rng i) row with
    | none => rw [hq] at h; exact absurd h (by simp)
    | some q =>
      rw [hq] at h
      cases hr : processRows d on_bits L N sp each rng (i + 1) rest with
      | none => rw [hr] at h; exact absurd h (by simp)
      | some ps =>
        rw [hr] at h
        obtain rfl := Option.some.inj h.symm
        cases k with
        | zero => rw [Nat.add_zero]; exact hq
        | succ k =>
          rw [List.length_cons] at hk
          have hrec := ih (i + 1) ps hr k (by omega)
          rw [List.getD_cons_succ, List.getD_cons_succ]
          have heq : i + (k + 1) = i + 1 + k := by omega
          rw [heq]
          exact hrec

lemma processRows_cons_none (d : List (Int × List Char × List Char))
    (on_bits : List Int) (L N : Nat) (sp : List Char) (each : Bool)
    (rng : Nat → Nat → Nat) (i : Nat) (row : Probe) (rest : List Probe)
    (h : processProbe d on_bits L N sp each (rng i) row = none) :
    processRows d on_bits L N sp each rng i (row :: rest) = none := by
  rw [processRows, h]

/-! ### Length preservation of the embedded numpy sort -/
lemma length_npSwap (t : List Nat) (i j : Nat) : (npSwap t i j).length = t.length := by
  rw [npSwap, List.length_set, List.length_set]

lemma length_npInsertInner (v : List Int) (pl vi : Nat) :
    ∀ (fuel pj : Nat) (t : List Nat),
      (npInsertInner v t pl vi fuel pj).length = t.length := by
  intro fuel
  induction fuel with
  | zero => intro pj t; rw [npInsertInner, List.length_set]
  | succ fuel ih =>
    intro pj t
    rw [npInsertInner]
    split
    · rw [ih, List.length_set]
    · rw [List.length_set]

lemma length_npInsertSortFrom (v : List Int) (pl pr : Nat) :
    ∀ (fuel pi : Nat) (t : List Nat),
      (npInsertSortFrom v pl pr fuel t pi).length = t.length := by
  intro fuel
  induction fuel with
  | zero => intro pi t; rfl
  | succ fuel ih =>
    intro pi t
    rw [npInsertSortFrom]
    split
    · rw [ih, length_npInsertInner]
    · rfl

lemma length_npInsertSortSeg (v : List Int) (t : List Nat) (pl pr : Nat) :
    (npInsertSortSeg v t pl pr).length = t.length :=
  length_npInsertSortFrom v pl pr _ _ t

lemma length_npSiftDown (v : List Int) (base n tmp : Nat) :
    ∀ (fuel i j : Nat) (t : List Nat),
      (npSiftDown v base n tmp fuel t i j).length = t.length := by
  intro fuel
  induction fuel with
  | zero => intro i j t; rw [npSiftDown, List.length_set]
  | succ fuel ih =>
    intro i j t
    rw [npSiftDown]
    split
    · split
      · dsimp only
        split
        · rw [ih, List.length_set]
        · rw [List.length_set]
      · dsimp only
        split
        · rw [ih, List.length_set]
        · rw [List.length_set]
    · rw [List.length_set]

lemma length_npHeapifyLoop (v : List Int) (base n : Nat) :
    ∀ (l : Nat) (t : List Nat), (npHeapifyLoop v base n l t).length = t.length := by
  intro l
  induction l with
  | zero => intro t; rfl
  | succ l ih =>
    intro t
    rw [npHeapifyLoop, ih, length_npSiftDown]

lemma length_npHeapPopLoop (v : List Int) (base : Nat) :
    ∀ (n : Nat) (t : List Nat), (npHeapPopLoop v base n t).length = t.length := by
  intro n
  induction n using Nat.strong_induction_on with
  | _ n ih =>
    match n with
    | 0 => intro t; rfl
    | 1 => intro t; rfl
    | n + 2 =>
      intro t
      rw [npHeapPopLoop, ih (n + 1) (by omega), length_npSiftDown,
        List.length_set]

lemma length_npHeapSortSeg (v : List Int) (t : List Nat) (pl pr : Nat) :
    (npHeapSortSeg v t pl pr).length = t.length := by
  rw [npHeapSortSeg, length_npHeapPopLoop, length_npHeapifyLoop]

lemma length_npPartLoop (v : List Int) (vp : Int) :
    ∀ (fuel : Nat) (t : List Nat) (pi pj : Nat),
      ((npPartLoop v vp fuel t pi pj).1).length = t.length := by
  intro fuel
  induction fuel with
  | zero => intro t pi pj; rfl
  | succ fuel ih =>
    intro t pi pj
    rw [npPartLoop]
    split
    · rw [ih, length_npSwap]
    · rfl

lemma length_npPartition (v : List Int) (t : List Nat) (pl pr : Nat) :
    ((npPartition v t pl pr).1).length = t.length := by
  rw [npPartition]
  simp only [length_npSwap, length_npPartLoop]
  split_ifs <;> simp [length_npSwap]

lemma length_npIntroLoop (v : List Int) :
    ∀ (fuel : Nat) (t : List Nat) (pl pr : Nat) (depth : Int),
      (npIntroLoop v fuel t pl pr depth).length = t.length := by
  intro fuel
  induction fuel with
  | zero => intro t pl pr depth; rfl
  | succ fuel ih =>
    intro t pl pr depth
    rw [npIntroLoop]
    split
    · dsimp only
      split
      · split
        · rw [length_npHeapSortSeg, ih, length_npPartition]
        · rw [ih, ih, length_npPartition]
      · split
        · rw [length_npHeapSortSeg, ih, length_npPartition]
        · rw [ih, ih, length_npPartition]
    · exact length_npInsertSortSeg v t _ _

lemma length_npArgsort (v : List Int) : (npArgsort v).length = v.length := by
  rw [npArgsort, length_npIntroLoop, List.length_range]

lemma length_sort_values_shift (probe_table : List Probe) :
    (sort_values_shift probe_table).length = probe_table.length := by
  rw [sort_values_shift, List.length_map, length_npArgsort, List.length_map]

/-- C4: with `each_probe_1_on_bit` forced and a nonempty on-bit set (and the
spec's input domain `N_readout_per_probe ≥ 1`), the sampler always picks one
on-bit from the gene's set and replicates it `N_readout_per_probe` times, and
every output probe's `probe_barcode` has exactly one character '1'. -/
theorem claim_C4_force_single_bit (probe_table : List Probe)
    (readout_seqs : List ReadoutSeq) (barcode : List Char) (N : Nat)
    (spacer : List Char) (rng : Nat → Nat → Nat) (out : List ProbeOut)
    (h : add_readout_seqs_to_probes_of_transcript_random probe_table readout_seqs
      barcode N spacer true rng = some out)
    (hN : 1 ≤ N) (hnb : barcode_to_on_bits barcode ≠ []) :
    (∀ r : Nat → Nat, ∃ b ∈ barcode_to_on_bits barcode,
      choose_on_bits (barcode_to_on_bits barcode) N true r =
        some (List.replicate N b)) ∧
    ∀ p ∈ out, p.probe_barcode.count '1' = 1 := by
  refine ⟨fun r => choose_on_bits_each _ N r hnb, ?_⟩
  intro p hp
  rw [add_readout_seqs_to_probes_of_transcript_random] at h
  cases hd : buildOnBitDict readout_seqs (barcode_to_on_bits barcode) with
  | none => rw [hd] at h; exact absurd h (by simp)
  | some d =>
    simp only [hd] at h
    obtain ⟨j, row, hrow⟩ := processRows_mem d _ _ _ _ _ _ _ 0 out h p hp
    obtain ⟨pobs, st, hc, hf, rfl⟩ := processProbe_some _ _ _ _ _ _ _ _ _ hrow
    obtain ⟨b, hb, hcb⟩ := choose_on_bits_each _ N (rng j) hnb
    rw [hc] at hcb
    obtain rfl := Option.some.inj hcb
    exact count_one_of_replicate b barcode N hN hb

/-- C5: without `each_probe_1_on_bit`, when the on-bit set has at least
`N_readout_per_probe` elements the sampler always returns that many pairwise
distinct on-bits of the set (sampling without replacement), and when the set
size equals `N_readout_per_probe` every output probe's `probe_barcode` equals
the gene barcode (for a well-formed barcode over the alphabet '0'/'1'). -/
theorem claim_C5_no_replacement (probe_table : List Probe)
    (readout_seqs : List ReadoutSeq) (barcode : List Char) (N : Nat)
    (spacer : List Char) (rng : Nat → Nat → Nat) (out : List ProbeOut)
    (h : add_readout_seqs_to_probes_of_transcript_random probe_table readout_seqs
      barcode N spacer false rng = some out)
    (hb : ∀ c ∈ barcode, c = '0' ∨ c = '1')
    (hN : N ≤ (barcode_to_on_bits barcode).length) :
    (∀ r : Nat → Nat, ∃ s : List Int,
      choose_on_bits (barcode_to_on_bits barcode) N false r = some s ∧
      s.length = N ∧ s.Nodup ∧ ∀ x ∈ s, x ∈ barcode_to_on_bits barcode) ∧
    ((barcode_to_on_bits barcode).length = N →
      ∀ p ∈ out, p.probe_barcode = barcode) := by
  constructor
  · intro r
    obtain ⟨h1, h2, h3, h4⟩ := choose_on_bits_no_replace _ N r hN
    exact ⟨_, h1, h2, h4 (barcode_to_on_bits_nodup barcode), h3⟩
  · intro hlen p hp
    rw [add_readout_seqs_to_probes_of_transcript_random] at h
    cases hd : buildOnBitDict readout_seqs (barcode_to_on_bits barcode) with
    | none => rw [hd] at h; exact absurd h (by simp)
    | some d =>
      simp only [hd] at h
      obtain ⟨j, row, hrow⟩ := processRows_mem d _ _ _ _ _ _ _ 0 out h p hp
      obtain ⟨pobs, st, hc, hf, rfl⟩ := processProbe_some _ _ _ _ _ _ _ _ _ hrow
      obtain ⟨h1, -, -, -⟩ := choose_on_bits_no_replace _ N (rng j) hN
      rw [hc] at h1
      obtain rfl := Option.some.inj h1.symm
      have hperm := npDrawNoReplace_perm (rng j) N _ 0 hlen
      show on_bits_to_barcodes _ barcode.length = barcode
      rw [on_bits_to_barcodes_congr _ (barcode_to_on_bits barcode) _
        (fun x => hperm.mem_iff), barcode_round_trip barcode hb]

/-- The output row at sorted position `k`, in closed form, given the sampled
on-bits `s` and their dictionary resolutions `ros`. -/
lemma assigner_row_closed (probe_table : List Probe)
    (readout_seqs : List ReadoutSeq) (barcode : List Char) (N : Nat)
    (spacer : List Char) (each : Bool) (rng : Nat → Nat → Nat)
    (out : List ProbeOut) (k : Nat) (d : List (Int × List Char × List Char))
    (s : List Int) (ros : List (List Char × List Char))
    (h : add_readout_seqs_to_probes_of_transcript_random probe_table readout_seqs
      barcode N spacer each rng = some out)
    (hd : buildOnBitDict readout_seqs (barcode_to_on_bits barcode) = some d)
    (hk : k < out.length)
    (hs : choose_on_bits (barcode_to_on_bits barcode) N each (rng k) = some s)
    (hros : lookupAll d s = some ros) :
    out.getD k probeOut0 =
      ⟨((sort_values_shift probe_table).getD k probe0).shift,
        ((sort_values_shift probe_table).getD k probe0).target_sequence,
        ((ros.take (N / 2)).reverse.map (fun p => p.1 ++ [':'])).flatten ++
          ((ros.drop (N / 2)).map (fun p => ':' :: p.1)).flatten,
        on_bits_to_barcodes s barcode.length,
        ((ros.take (N / 2)).reverse.map (fun p => p.2 ++ spacer)).flatten ++
          ((sort_values_shift probe_table).getD k probe0).target_sequence ++
          ((ros.drop (N / 2)).map (fun p => spacer ++ p.2)).flatten⟩ := by
  rw [add_readout_seqs_to_probes_of_transcript_random, hd] at h
  simp only at h
  have hlen : out.length = (sort_values_shift probe_table).length :=
    processRows_length _ _ _ _ _ _ _ _ 0 out h
  have hk' : k < (sort_values_shift probe_table).length := by omega
  have hrow := processRows_getD _ _ _ _ _ _ _ _ 0 out h k hk'
  rw [Nat.zero_add] at hrow
  obtain ⟨pobs, st, hc, hf, hout⟩ := processProbe_some _ _ _ _ _ _ _ _ _ hrow
  rw [hs] at hc
  obtain rfl := Option.some.inj hc
  have hsN : s.length = N := choose_on_bits_some_length _ _ _ _ _ hs
  have hclosed := readoutFold_closed d spacer (N / 2) s
    ([], ((sort_values_shift probe_table).getD k probe0).target_sequence) ros
    hros (by omega)
  rw [hf] at hclosed
  obtain rfl := Option.some.inj hclosed.symm
  rw [hout]
  simp only [List.append_nil, List.nil_append]

lemma sum_map_add_fn (α : Type) (f g : α → Nat) :
    ∀ l : List α, (l.map (fun x => f x + g x)).sum = (l.map f).sum + (l.map g).sum := by
  intro l
  induction l with
  | nil => rfl
  | cons x xs ih =>
    simp only [List.map_cons, List.sum_cons, ih]
    omega

lemma sum_map_const (α : Type) (c : Nat) :
    ∀ l : List α, (l.map (fun _ => c)).sum = l.length * c := by
  intro l
  induction l with
  | nil => simp
  | cons x xs ih =>
    simp only [List.map_cons, List.sum_cons, ih, List.length_cons]
    ring

/-- Total length contributed by the left and right assembly blocks. -/
lemma assembly_blocks_length (ros : List (List Char × List Char))
    (sp : List Char) (nl : Nat) (hnl : nl ≤ ros.length) :
    (((ros.take nl).reverse.map (fun p => p.2 ++ sp)).flatten).length +
      (((ros.drop nl).map (fun p => sp ++ p.2)).flatten).length =
      ros.length * sp.length + (ros.map (fun p => p.2.length)).sum := by
  rw [List.length_flatten, List.length_flatten, List.map_map, List.map_map]
  have hleft : ((ros.take nl).reverse.map (List.length ∘ fun p => p.2 ++ sp)).sum =
      ((ros.take nl).map (fun p => p.2.length)).sum + nl * sp.length := by
    rw [List.map_reverse, List.sum_reverse]
    have : (ros.take nl).map (List.length ∘ fun p => p.2 ++ sp) =
        (ros.take nl).map (fun p => p.2.length + sp.length) := by
      apply List.map_congr_left
      intro p _
      simp [List.length_append]
    rw [this, sum_map_add_fn (List Char × List Char) (fun p => p.2.length)
      (fun _ => sp.length) _, sum_map_const, List.length_take_of_le hnl]
  have hright : ((ros.drop nl).map (List.length ∘ fun p => sp ++ p.2)).sum =
      ((ros.drop nl).map (fun p => p.2.length)).sum +
        (ros.length - nl) * sp.length := by
    have : (ros.drop nl).map (List.length ∘ fun p => sp ++ p.2) =
        (ros.drop nl).map (fun p => p.2.length + sp.length) := by
      apply List.map_congr_left
      intro p _
      simp [List.length_append]
      omega
    rw [this, sum_map_add_fn (List Char × List Char) (fun p => p.2.length)
      (fun _ => sp.length) _, sum_map_const, List.length_drop]
  rw [hleft, hright]
  have hsplit : ((ros.take nl).map (fun p => p.2.length)).sum +
      ((ros.drop nl).map (fun p => p.2.length)).sum =
      (ros.map (fun p => p.2.length)).sum := by
    conv_rhs => rw [← List.take_append_drop nl ros]
    rw [List.map_append, List.sum_append]
  have hmul : nl * sp.length + (ros.length - nl) * sp.length =
      ros.length * sp.length := by
    have : nl + (ros.length - nl) = ros.length := by omega
    calc nl * sp.length + (ros.length - nl) * sp.length
        = (nl + (ros.length - nl)) * sp.length := by ring
      _ = ros.length * sp.length := by rw [this]
  omega

/-- C3: the assembled `target_readout_sequence` of the probe at sorted
position `k` is the left-group readout sequences (sampled indices below
`N_readout_per_probe / 2`), each followed by the spacer, prepended in reverse
insertion order, then the target sequence, then the right-group readout
sequences each preceded by the spacer in forward order; its length is the
target length plus `N_readout_per_probe` spacer lengths plus the lengths of
all sampled readout sequences. -/
theorem claim_C3_assembly (probe_table : List Probe)
    (readout_seqs : List ReadoutSeq) (barcode : List Char) (N : Nat)
    (spacer : List Char) (each : Bool) (rng : Nat → Nat → Nat)
    (out : List ProbeOut) (k : Nat) (d : List (Int × List Char × List Char))
    (s : List Int) (ros : List (List Char × List Char))
    (h : add_readout_seqs_to_probes_of_transcript_random probe_table readout_seqs
      barcode N spacer each rng = some out)
    (hd : buildOnBitDict readout_seqs (barcode_to_on_bits barcode) = some d)
    (hk : k < out.length)
    (hs : choose_on_bits (barcode_to_on_bits barcode) N each (rng k) = some s)
    (hros : lookupAll d s = some ros) :
    (out.getD k probeOut0).target_readout_sequence =
      spec_left_assembly ros spacer (N / 2) ++
        ((sort_values_shift probe_table).getD k probe0).target_sequence ++
        spec_right_assembly ros spacer (N / 2) ∧
    (out.getD k probeOut0).target_readout_sequence.length =
      ((sort_values_shift probe_table).getD k probe0).target_sequence.length +
        N * spacer.length + (ros.map (fun p => p.2.length)).sum := by
  have hrow := assigner_row_closed probe_table readout_seqs barcode N spacer
    each rng out k d s ros h hd hk hs hros
  have hsN : s.length = N := choose_on_bits_some_length _ _ _ _ _ hs
  have hrosN : ros.length = N := by rw [lookupAll_length d s ros hros, hsN]
  constructor
  · rw [hrow]
    show ((ros.take (N / 2)).reverse.map (fun p => p.2 ++ spacer)).flatten ++
        ((sort_values_shift probe_table).getD k probe0).target_sequence ++
        ((ros.drop (N / 2)).map (fun p => spacer ++ p.2)).flatten = _
    rw [spec_left_assembly, spec_right_assembly, List.map_reverse]
  · rw [hrow]
    show (((ros.take (N / 2)).reverse.map (fun p => p.2 ++ spacer)).flatten ++
        ((sort_values_shift probe_table).getD k probe0).target_sequence ++
        ((ros.drop (N / 2)).map (fun p => spacer ++ p.2)).flatten).length = _
    rw [List.length_append, List.length_append]
    have hblocks := assembly_blocks_length ros spacer (N / 2) (by omega)
    rw [hrosN] at hblocks
    omega

/-- C6 (amended): the recorded `readout_names` string is the reversed
left-group ids each followed by ':', then the right-group ids each preceded
by ':'; equivalently the colon-joined assembly-order ids with one extra colon
where the initial empty accumulator sits (between the two groups, or at the
very front when the left group is empty). -/
theorem claim_C6_readout_names (probe_table : List Probe)
    (readout_seqs : List ReadoutSeq) (barcode : List Char) (N : Nat)
    (spacer : List Char) (each : Bool) (rng : Nat → Nat → Nat)
    (out : List ProbeOut) (k : Nat) (d : List (Int × List Char × List Char))
    (s : List Int) (ros : List (List Char × List Char))
    (h : add_readout_seqs_to_probes_of_transcript_random probe_table readout_seqs
      barcode N spacer each rng = some out)
    (hd : buildOnBitDict readout_seqs (barcode_to_on_bits barcode) = some d)
    (hk : k < out.length)
    (hs : choose_on_bits (barcode_to_on_bits barcode) N each (rng k) = some s)
    (hros : lookupAll d s = some ros) :
    (out.getD k probeOut0).readout_names =
      ((ros.take (N / 2)).reverse.map (fun p => p.1 ++ [':'])).flatten ++
        ((ros.drop (N / 2)).map (fun p => ':' :: p.1)).flatten := by
  rw [assigner_row_closed probe_table readout_seqs barcode N spacer
    each rng out k d s ros h hd hk hs hros]

/-- C7 (amended): an invocation whose barcode has an empty on-bit set raises
the empty-domain failure whenever the probe table has at least one row and
`N_readout_per_probe ≥ 1` (the spec's input domain); with zero rows the
per-probe loop never runs and no failure is raised. -/
theorem claim_C7_empty_domain (probe_table : List Probe)
    (readout_seqs : List ReadoutSeq) (barcode : List Char) (N : Nat)
    (spacer : List Char) (each : Bool) (rng : Nat → Nat → Nat)
    (hne : probe_table ≠ []) (hN : 1 ≤ N)
    (hob : barcode_to_on_bits barcode = []) :
    add_readout_seqs_to_probes_of_transcript_random probe_table readout_seqs
      barcode N spacer each rng = none := by
  rw [add_readout_seqs_to_probes_of_transcript_random, hob]
  simp only [buildOnBitDict]
  cases hsort : sort_values_shift probe_table with
  | nil =>
    exfalso
    have := length_sort_values_shift probe_table
    rw [hsort] at this
    exact hne (List.length_eq_zero.1 this.symm)
  | cons row rest =>
    exact processRows_cons_none _ _ _ _ _ _ _ _ _ _
      (processProbe_none_of_choose_none _ _ _ _ _ _ _ _
        (choose_on_bits_empty_none N each (rng 0) hN))

theorem claim_C7_empty_domain_witness :
    ([{ shift := 0, target_sequence := ['A', 'C'] }] : List Probe) ≠ [] ∧
      add_readout_seqs_to_probes_of_transcript_random
        [{ shift := 0, target_sequence := ['A', 'C'] }] [] ['0', '0'] 1 []
        false (fun _ _ => 0) = none :=
  ⟨by decide, claim_C7_empty_domain _ [] ['0', '0'] 1 [] false _ (by decide)
    (by decide) (by decide)⟩

/-- C7 (counterexample): with a zero-row probe table and an all-zero barcode
the call returns the (empty) updated table instead of raising, so the claim
as stated over every invocation is false. -/
theorem claim_C7_counterexample :
    add_readout_seqs_to_probes_of_transcript_random [] [] ['0', '0'] 2 []
      false (fun _ _ => 0) = some [] ∧
    (some ([] : List ProbeOut)) ≠ none := by
  exact ⟨rfl, by simp⟩

/-- C10 (amended): every zero-row invocation whose on-bit dictionary can be
built (in particular every one whose on-bit set is empty) returns the empty
table without an error; a zero-row invocation whose barcode requires an
on-bit missing from the readout table still raises. -/
theorem claim_C10_empty_table (readout_seqs : List ReadoutSeq)
    (barcode : List Char) (N : Nat) (spacer : List Char) (each : Bool)
    (rng : Nat → Nat → Nat) :
    (∀ d, buildOnBitDict readout_seqs (barcode_to_on_bits barcode) = some d →
      add_readout_seqs_to_probes_of_transcript_random [] readout_seqs barcode N
        spacer each rng = some []) ∧
    (barcode_to_on_bits barcode = [] →
      add_readout_seqs_to_probes_of_transcript_random [] readout_seqs barcode N
        spacer each rng = some []) := by
  constructor
  · intro d hd
    rw [add_readout_seqs_to_probes_of_transcript_random, hd]
    rfl
  · intro hob
    rw [add_readout_seqs_to_probes_of_transcript_random, hob]
    rfl

theorem claim_C10_empty_table_witness :
    add_readout_seqs_to_probes_of_transcript_random []
      [{ id := ['A'], sequence := ['G', 'G', 'G'], on_bit := 0 }] ['1'] 2 []
      false (fun _ _ => 0) = some [] :=
  (claim_C10_empty_table
    [{ id := ['A'], sequence := ['G', 'G', 'G'], on_bit := 0 }] ['1'] 2 []
    false (fun _ _ => 0)).1 [((0 : Int), ['A'], ['G', 'G', 'G'])] (by decide)

/-- C10 (counterexample): a zero-row table with barcode "1" and an empty
readout table raises during dictionary construction (before the per-probe
loop), so the claim as stated over every zero-row invocation is false. -/
theorem claim_C10_counterexample :
    add_readout_seqs_to_probes_of_transcript_random [] [] ['1'] 1 [] false
      (fun _ _ => 0) = none := rfl

theorem claim_C3_assembly_witness :
    (wOUT.getD 0 probeOut0).target_readout_sequence =
      spec_left_assembly [(['A'], ['a', 'a']), (['C'], ['c', 'c'])] ['T', 'T'] 1 ++
        ((sort_values_shift wPT).getD 0 probe0).target_sequence ++
        spec_right_assembly [(['A'], ['a', 'a']), (['C'], ['c', 'c'])] ['T', 'T'] 1 ∧
    (wOUT.getD 0 probeOut0).target_readout_sequence.length =
      ((sort_values_shift wPT).getD 0 probe0).target_sequence.length +
        2 * (['T', 'T'] : List Char).length +
        (([(['A'], ['a', 'a']), (['C'], ['c', 'c'])] :
          List (List Char × List Char)).map (fun p => p.2.length)).sum :=
  claim_C3_assembly wPT wRS ['1', '0', '1', '0'] 2 ['T', 'T'] false wRNG wOUT 0
    [((0 : Int), ['A'], ['a', 'a']), ((2 : Int), ['C'], ['c', 'c'])] [0, 2]
    [(['A'], ['a', 'a']), (['C'], ['c', 'c'])]
    (by decide) (by decide) (by decide) (by decide) (by decide)

theorem claim_C4_force_single_bit_witness :
    (∀ r : Nat → Nat, ∃ b ∈ barcode_to_on_bits ['1', '1'],
      choose_on_bits (barcode_to_on_bits ['1', '1']) 2 true r =
        some (List.replicate 2 b)) ∧
    ∀ p ∈ ([⟨0, ['A', 'C', 'G', 'T'], ['A', ':', ':', 'A'], ['1', '0'],
        ['a', 'a', 'A', 'C', 'G', 'T', 'a', 'a']⟩] : List ProbeOut),
      p.probe_barcode.count '1' = 1 :=
  claim_C4_force_single_bit wPT wRS ['1', '1'] 2 [] wRNG
    [⟨0, ['A', 'C', 'G', 'T'], ['A', ':', ':', 'A'], ['1', '0'],
      ['a', 'a', 'A', 'C', 'G', 'T', 'a', 'a']⟩]
    (by decide) (by decide) (by decide)

theorem claim_C5_no_replacement_witness :
    (∀ r : Nat → Nat, ∃ s : List Int,
      choose_on_bits (barcode_to_on_bits ['1', '0', '1', '0']) 2 false r =
        some s ∧ s.length = 2 ∧ s.Nodup ∧
        ∀ x ∈ s, x ∈ barcode_to_on_bits ['1', '0', '1', '0']) ∧
    ((barcode_to_on_bits ['1', '0', '1', '0']).length = 2 →
      ∀ p ∈ wOUT, p.probe_barcode = ['1', '0', '1', '0']) :=
  claim_C5_no_replacement wPT wRS ['1', '0', '1', '0'] 2 ['T', 'T'] wRNG wOUT
    (by decide) (by decide) (by decide)

theorem claim_C6_readout_names_witness :
    (wOUT.getD 0 probeOut0).readout_names =
      ((([(['A'], ['a', 'a']), (['C'], ['c', 'c'])] :
          List (List Char × List Char)).take 1).reverse.map
        (fun p => p.1 ++ [':'])).flatten ++
      ((([(['A'], ['a', 'a']), (['C'], ['c', 'c'])] :
          List (List Char × List Char)).drop 1).map
        (fun p => ':' :: p.1)).flatten :=
  claim_C6_readout_names wPT wRS ['1', '0', '1', '0'] 2 ['T', 'T'] false wRNG
    wOUT 0 [((0 : Int), ['A'], ['a', 'a']), ((2 : Int), ['C'], ['c', 'c'])]
    [0, 2] [(['A'], ['a', 'a']), (['C'], ['c', 'c'])]
    (by decide) (by decide) (by decide) (by decide) (by decide)

/-- C6 (counterexample): with one sampled readout of id "A" the recorded
`readout_names` is ":A", not the colon-joined id list "A" — the accumulator
starts as the empty string and still receives a ':' separator, so the claim
as stated (plain colon-joining of the assembly-order ids) is false. -/
theorem claim_C6_counterexample :
    add_readout_seqs_to_probes_of_transcript_random
      [{ shift := 0, target_sequence := ['A', 'C', 'G', 'T'] }]
      [⟨['A'], ['G', 'G', 'G'], 0⟩] ['1'] 1 [] false wRNG =
      some [⟨0, ['A', 'C', 'G', 'T'], [':', 'A'], ['1'],
        ['A', 'C', 'G', 'T', 'G', 'G', 'G']⟩] ∧
    ([':', 'A'] : List Char) ≠ spec_colon_join [['A']] := by
  exact ⟨rfl, by decide⟩

/-! ### Lemmas about the batch dispatcher -/
lemma dispatchTranscripts_spec (readout_seqs : List ReadoutSeq) (N : Nat)
    (sp : List Char) (each : Bool) (rngs : Nat → Nat → Nat → Nat)
    (bc : List Char) :
    ∀ (ts : List (List Char × List Probe)) (i : Nat)
      (res : Nat × List (List Char × List ProbeOut)),
      dispatchTranscripts readout_seqs N sp each rngs bc i ts = some res →
      res.2.length = ts.length ∧
      ∀ ti, ti < ts.length →
        (res.2.getD ti ([], [])).1 = (ts.getD ti ([], [])).1 ∧
        add_readout_seqs_to_probes_of_transcript_random (ts.getD ti ([], [])).2
          readout_seqs bc N sp each (rngs (i + ti)) =
          some (res.2.getD ti ([], [])).2 := by
  intro ts
  induction ts with
  | nil =>
    intro i res h
    obtain rfl := Option.some.inj h.symm
    exact ⟨rfl, fun ti hti => absurd hti (by simp)⟩
  | cons t rest ih =>
    intro i res h
    rw [dispatchTranscripts] at h
    cases ha : add_readout_seqs_to_probes_of_transcript_random t.2 readout_seqs
        bc N sp each (rngs i) with
    | none => rw [ha] at h; exact absurd h (by simp)
    | some tbl =>
      simp only [ha] at h
      cases hrec : dispatchTranscripts readout_seqs N sp each rngs bc (i + 1)
          rest with
      | none =>
        simp only [hrec] at h
        exact absurd h (by simp)
      | some s =>
        simp only [hrec] at h
        obtain rfl := Option.some.inj h.symm
        obtain ⟨hlen, hrest⟩ := ih (i + 1) s hrec
        refine ⟨by simp [hlen], ?_⟩
        intro ti hti
        cases ti with
        | zero =>
          refine ⟨rfl, ?_⟩
          rw [Nat.add_zero]
          simp only [List.getD_cons_zero]
          exact ha
        | succ ti =>
          rw [List.length_cons] at hti
          obtain ⟨h1, h2⟩ := hrest ti (by omega)
          refine ⟨by simpa using h1, ?_⟩
          have heq : i + (ti + 1) = i + 1 + ti := by omega
          rw [heq]
          simpa using h2

lemma dispatchGenes_spec (readout_seqs : List ReadoutSeq)
    (barcode_table : List BcRow) (N : Nat) (sp : List Char)
    (gidk : BcRow → List Char) (each : Bool) (rngs : Nat → Nat → Nat → Nat) :
    ∀ (gs : List (List Char × List (List Char × List Probe))) (i : Nat)
      (out : List (List Char × List (List Char × List ProbeOut))),
      dispatchGenes readout_seqs barcode_table N sp gidk each rngs i gs =
        some out →
      out.length = gs.length ∧
      ∀ gi, gi < gs.length →
        (out.getD gi ([], [])).1 = (gs.getD gi ([], [])).1 ∧
        (out.getD gi ([], [])).2.length = (gs.getD gi ([], [])).2.length ∧
        ∃ bc, lookupBarcode barcode_table gidk (gs.getD gi ([], [])).1 =
            some bc ∧
          ∀ ti, ti < (gs.getD gi ([], [])).2.length →
            ((out.getD gi ([], [])).2.getD ti ([], [])).1 =
              ((gs.getD gi ([], [])).2.getD ti ([], [])).1 ∧
            ∃ r, add_readout_seqs_to_probes_of_transcript_random
                ((gs.getD gi ([], [])).2.getD ti ([], [])).2 readout_seqs bc N
                sp each r =
              some ((out.getD gi ([], [])).2.getD ti ([], [])).2 := by
  intro gs
  induction gs with
  | nil =>
    intro i out h
    obtain rfl := Option.some.inj h.symm
    exact ⟨rfl, fun gi hgi => absurd hgi (by simp)⟩
  | cons g rest ih =>
    intro i out h
    rw [dispatchGenes] at h
    cases hbc : lookupBarcode barcode_table gidk g.1 with
    | none => rw [hbc] at h; exact absurd h (by simp)
    | some bc =>
      simp only [hbc] at h
      cases hts : dispatchTranscripts readout_seqs N sp each rngs bc i g.2 with
      | none =>
        simp only [hts] at h
        exact absurd h (by simp)
      | some s =>
        simp only [hts] at h
        cases hrec : dispatchGenes readout_seqs barcode_table N sp gidk each
            rngs s.1 rest with
        | none =>
          simp only [hrec] at h
          exact absurd h (by simp)
        | some rest' =>
          simp only [hrec] at h
          obtain rfl := Option.some.inj h.symm
          obtain ⟨hlen2, hts'⟩ := dispatchTranscripts_spec readout_seqs N sp
            each rngs bc g.2 i s hts
          obtain ⟨hlenr, hrest⟩ := ih s.1 rest' hrec
          refine ⟨by simp [hlenr], ?_⟩
          intro gi hgi
          cases gi with
          | zero =>
            refine ⟨by simp, by simpa using hlen2, bc, hbc, ?_⟩
            intro ti hti
            obtain ⟨h1, h2⟩ := hts' ti (by simpa using hti)
            exact ⟨by simpa using h1, rngs (i + ti), by simpa using h2⟩
          | succ gi =>
            rw [List.length_cons] at hgi
            simp only [List.getD_cons_succ]
            exact hrest gi (by omega)

/-- C9: when the batch dispatcher succeeds, the gene keys (in order), the
transcript keys under each gene (in order) and nothing else of the probe
dictionary's structure change, and the table stored at every
(gene, transcript) key is an assigner output of exactly that key's original
probe table with that gene's barcode (tasks are written back by task
identity, not completion order: `Pool.starmap` returns results in argument
order). -/
theorem claim_C9_dispatcher_frame
    (probe_dict : List (List Char × List (List Char × List Probe)))
    (readout_seqs : List ReadoutSeq) (barcode_table : List BcRow) (N : Nat)
    (spacer : List Char) (gene_id_key : BcRow → List Char) (each : Bool)
    (rngs : Nat → Nat → Nat → Nat)
    (out : List (List Char × List (List Char × List ProbeOut)))
    (h : add_readout_seqs_to_probes_random probe_dict readout_seqs barcode_table
      N spacer gene_id_key each rngs = some out) :
    out.length = probe_dict.length ∧
    ∀ gi, gi < probe_dict.length →
      (out.getD gi ([], [])).1 = (probe_dict.getD gi ([], [])).1 ∧
      (out.getD gi ([], [])).2.length = (probe_dict.getD gi ([], [])).2.length ∧
      ∃ bc, lookupBarcode barcode_table gene_id_key
          (probe_dict.getD gi ([], [])).1 = some bc ∧
        ∀ ti, ti < (probe_dict.getD gi ([], [])).2.length →
          ((out.getD gi ([], [])).2.getD ti ([], [])).1 =
            ((probe_dict.getD gi ([], [])).2.getD ti ([], [])).1 ∧
          ∃ r, add_readout_seqs_to_probes_of_transcript_random
              ((probe_dict.getD gi ([], [])).2.getD ti ([], [])).2 readout_seqs
              bc N spacer each r =
            some ((out.getD gi ([], [])).2.getD ti ([], [])).2 :=
  dispatchGenes_spec readout_seqs barcode_table N spacer gene_id_key each rngs
    probe_dict 0 out h

theorem claim_C9_dispatcher_frame_witness :
    ([(['g'], [(['t'], wOUT)])] :
      List (List Char × List (List Char × List ProbeOut))).length =
      ([(['g'], [(['t'], wPT)])] :
        List (List Char × List (List Char × List Probe))).length ∧
    ∀ gi, gi < ([(['g'], [(['t'], wPT)])] :
        List (List Char × List (List Char × List Probe))).length →
      (([(['g'], [(['t'], wOUT)])] :
        List (List Char × List (List Char × List ProbeOut))).getD gi ([], [])).1 =
        (([(['g'], [(['t'], wPT)])] :
          List (List Char × List (List Char × List Probe))).getD gi ([], [])).1 ∧
      (([(['g'], [(['t'], wOUT)])] :
        List (List Char × List (List Char × List ProbeOut))).getD gi
          ([], [])).2.length =
        (([(['g'], [(['t'], wPT)])] :
          List (List Char × List (List Char × List Probe))).getD gi
            ([], [])).2.length ∧
      ∃ bc, lookupBarcode [⟨['g'], ['G'], ['1', '0', '1', '0']⟩]
          (fun row => row.gene_name)
          (([(['g'], [(['t'], wPT)])] :
            List (List Char × List (List Char × List Probe))).getD gi
              ([], [])).1 = some bc ∧
        ∀ ti, ti < (([(['g'], [(['t'], wPT)])] :
            List (List Char × List (List Char × List Probe))).getD gi
              ([], [])).2.length →
          ((([(['g'], [(['t'], wOUT)])] :
            List (List Char × List (List Char × List ProbeOut))).getD gi
              ([], [])).2.getD ti ([], [])).1 =
            ((([(['g'], [(['t'], wPT)])] :
              List (List Char × List (List Char × List Probe))).getD gi
                ([], [])).2.getD ti ([], [])).1 ∧
          ∃ r, add_readout_seqs_to_probes_of_transcript_random
              ((([(['g'], [(['t'], wPT)])] :
                List (List Char × List (List Char × List Probe))).getD gi
                  ([], [])).2.getD ti ([], [])).2 wRS bc 2 ['T', 'T'] false r =
            some ((([(['g'], [(['t'], wOUT)])] :
              List (List Char × List (List Char × List ProbeOut))).getD gi
                ([], [])).2.getD ti ([], [])).2 :=
  claim_C9_dispatcher_frame [(['g'], [(['t'], wPT)])] wRS
    [⟨['g'], ['G'], ['1', '0', '1', '0']⟩] 2 ['T', 'T']
    (fun row => row.gene_name) false (fun _ _ _ => 0)
    [(['g'], [(['t'], wOUT)])] (by decide)

lemma SegOp.refl (pl pr : Nat) (t : List Nat) : SegOp pl pr t t :=
  ⟨List.Perm.refl t, fun _ _ => rfl⟩

lemma SegOp.trans (pl pr : Nat) (t₁ t₂ t₃ : List Nat) (h1 : SegOp pl pr t₁ t₂)
    (h2 : SegOp pl pr t₂ t₃) : SegOp pl pr t₁ t₃ :=
  ⟨h2.1.trans h1.1, fun k hk => (h2.2 k hk).trans (h1.2 k hk)⟩

lemma SegOp.mono (pl pr a b : Nat) (t t' : List Nat) (hpl : pl ≤ a) (hpr : b ≤ pr)
    (h : SegOp a b t t') : SegOp pl pr t t' :=
  ⟨h.1, fun k hk => h.2 k (by omega)⟩

lemma SegOp.length_eq (pl pr : Nat) (t t' : List Nat) (h : SegOp pl pr t t') :
    t'.length = t.length :=
  h.1.length_eq

lemma segSorted_of_adj (v : List Int) (t : List Nat) (pl pr : Nat)
    (h : SegSortedAdj v t pl pr) : SegSorted v t pl pr := by
  intro j k hj hjk hk
  induction k with
  | zero =>
    obtain rfl : j = 0 := by omega
    exact le_refl _
  | succ k ih =>
    by_cases hjk' : j = k + 1
    · subst hjk'
      exact le_refl _
    · exact le_trans (ih (by omega) (by omega)) (h k (by omega) (by omega))

lemma seg_length (t : List Nat) (pl pr : Nat) (hpl : pl ≤ pr)
    (hpr : pr < t.length) : (seg t pl pr).length = pr + 1 - pl := by
  rw [seg, List.length_take, List.length_drop]
  omega

lemma seg_getD (t : List Nat) (pl pr k : Nat) (hk1 : pl ≤ k) (hk2 : k ≤ pr)
    (hpr : pr < t.length) : (seg t pl pr).getD (k - pl) 0 = t.getD k 0 := by
  rw [seg]
  have h1 : k - pl < pr + 1 - pl := by omega
  have h2 : k - pl < (t.drop pl).length := by
    rw [List.length_drop]
    omega
  rw [List.getD_eq_getElem _ _ (by rw [List.length_take]; omega : k - pl <
    ((t.drop pl).take (pr + 1 - pl)).length)]
  rw [List.getElem_take, List.getElem_drop, List.getD_eq_getElem _ _ (by omega)]
  congr 1
  omega

lemma seg_decomp (t : List Nat) (pl pr : Nat) (hpl : pl ≤ pr)
    (hpr : pr < t.length) :
    t = t.take pl ++ seg t pl pr ++ t.drop (pr + 1) := by
  rw [seg]
  have h1 : t.drop pl = (t.drop pl).take (pr + 1 - pl) ++
      (t.drop pl).drop (pr + 1 - pl) := (List.take_append_drop _ _).symm
  have h2 : (t.drop pl).drop (pr + 1 - pl) = t.drop (pr + 1) := by
    rw [List.drop_drop]
    congr 1
    omega
  rw [List.append_assoc, ← h2, ← h1, List.take_append_drop]

lemma SegOp.slice_perm (pl pr : Nat) (t t' : List Nat) (h : SegOp pl pr t t')
    (hpl : pl ≤ pr) (hpr : pr < t.length) :
    (seg t' pl pr).Perm (seg t pl pr) := by
  have hlen : t'.length = t.length := h.1.length_eq
  have htake : t'.take pl = t.take pl := by
    apply List.ext_getElem
    · rw [List.length_take, List.length_take, hlen]
    · intro i h1 h2
      rw [List.getElem_take, List.getElem_take]
      have hi : i < pl := by
        rw [List.length_take] at h1
        omega
      rw [← List.getD_eq_getElem _ 0, ← List.getD_eq_getElem _ 0]
      exact h.2 i (Or.inl hi)
  have hdrop : t'.drop (pr + 1) = t.drop (pr + 1) := by
    apply List.ext_getElem
    · rw [List.length_drop, List.length_drop, hlen]
    · intro i h1 h2
      rw [List.getElem_drop, List.getElem_drop]
      rw [← List.getD_eq_getElem _ 0, ← List.getD_eq_getElem _ 0]
      exact h.2 (pr + 1 + i) (Or.inr (by omega))
  have hd : t = t.take pl ++ seg t pl pr ++ t.drop (pr + 1) :=
    seg_decomp t pl pr hpl hpr
  have hd' : t' = t.take pl ++ seg t' pl pr ++ t.drop (pr + 1) := by
    rw [← htake, ← hdrop]
    exact seg_decomp t' pl pr hpl (by omega)
  have hmid : (t.take pl ++ seg t' pl pr ++ t.drop (pr + 1)).Perm
      (t.take pl ++ seg t pl pr ++ t.drop (pr + 1)) := by
    rw [← hd, ← hd']
    exact h.1
  rw [List.append_assoc, List.append_assoc] at hmid
  exact (List.perm_append_right_iff _).1 ((List.perm_append_left_iff _).1 hmid)

lemma SegOp.mem_transfer (pl pr : Nat) (t t' : List Nat) (h : SegOp pl pr t t')
    (hpl : pl ≤ pr) (hpr : pr < t.length) :
    ∀ k, pl ≤ k → k ≤ pr → ∃ m, pl ≤ m ∧ m ≤ pr ∧
      t'.getD k 0 = t.getD m 0 := by
  intro k hk1 hk2
  have hlen : t'.length = t.length := h.1.length_eq
  have hmem : t'.getD k 0 ∈ seg t' pl pr := by
    rw [← seg_getD t' pl pr k hk1 hk2 (by omega)]
    have hl := seg_length t' pl pr hpl (by omega)
    rw [List.getD_eq_getElem _ _ (by omega)]
    exact List.getElem_mem _
  have hmem' : t'.getD k 0 ∈ seg t pl pr :=
    (h.slice_perm pl pr t t' hpl hpr).mem_iff.1 hmem
  obtain ⟨i, hi, hval⟩ := List.getElem_of_mem hmem'
  rw [seg_length t pl pr hpl hpr] at hi
  refine ⟨pl + i, by omega, by omega, ?_⟩
  have hseg := seg_getD t pl pr (pl + i) (by omega) (by omega) hpr
  rw [Nat.add_sub_cancel_left] at hseg
  rw [← hval, ← List.getD_eq_getElem _ 0, hseg]

lemma take_set_of_le (l : List Nat) (i n x : Nat) (h : n ≤ i) :
    (l.set i x).take n = l.take n := by
  apply List.ext_getElem?
  intro k
  by_cases hk : k < n
  · rw [List.getElem?_take_of_lt hk, List.getElem?_take_of_lt hk,
      List.getElem?_set_ne (by omega)]
  · rw [List.getElem?_take, List.getElem?_take, if_neg hk, if_neg hk]

lemma getD_set_ne (l : List Nat) (i k x : Nat) (h : k ≠ i) :
    (l.set i x).getD k 0 = l.getD k 0 := by
  rw [List.getD_eq_getElem?_getD, List.getD_eq_getElem?_getD,
    List.getElem?_set_ne (fun he => h he.symm)]

lemma getD_set_self (l : List Nat) (i x : Nat) (h : i < l.length) :
    (l.set i x).getD i 0 = x := by
  rw [List.getD_eq_getElem?_getD, List.getElem?_set_self h]
  rfl

lemma npInsertInner_spec (v : List Int) (pl vi : Nat) :
    ∀ (fuel pj : Nat) (t : List Nat), pl ≤ pj → pj ≤ pl + fuel →
      pj < t.length →
      ∃ q, pl ≤ q ∧ q ≤ pj ∧
        npInsertInner v t pl vi fuel pj =
          t.take q ++ vi :: ((t.drop q).take (pj - q) ++ t.drop (pj + 1)) ∧
        (q = pl ∨ keyAt v t (q - 1) ≤ v.getD vi 0) ∧
        (∀ m, q ≤ m → m < pj → v.getD vi 0 < keyAt v t m) := by
  intro fuel
  induction fuel with
  | zero =>
    intro pj t hpl hfuel hlen
    obtain rfl : pj = pl := by omega
    refine ⟨pj, le_refl pj, le_refl pj, ?_, Or.inl rfl, fun m h1 h2 => by omega⟩
    rw [npInsertInner, List.set_eq_take_append_cons_drop, if_pos hlen]
    simp
  | succ fuel ih =>
    intro pj t hpl hfuel hlen
    rw [npInsertInner]
    by_cases hc : pl < pj ∧ v.getD vi 0 < keyAt v t (pj - 1)
    · rw [if_pos hc]
      obtain ⟨q, hq1, hq2, heq, hstop, hgt⟩ :=
        ih (pj - 1) (t.set pj (t.getD (pj - 1) 0)) (by omega) (by omega)
          (by rw [List.length_set]; omega)
      have hA : (t.set pj (t.getD (pj - 1) 0)).take q = t.take q :=
        take_set_of_le _ _ _ _ (by omega)
      have hdropset : (t.set pj (t.getD (pj - 1) 0)).drop q =
          (t.drop q).set (pj - q) (t.getD (pj - 1) 0) := by
        rw [List.drop_set, if_neg (by omega)]
      have hB : ((t.set pj (t.getD (pj - 1) 0)).drop q).take (pj - 1 - q) =
          (t.drop q).take (pj - 1 - q) := by
        rw [hdropset, take_set_of_le _ _ _ _ (by omega)]
      have hC : (t.set pj (t.getD (pj - 1) 0)).drop (pj - 1 + 1) =
          t.getD (pj - 1) 0 :: t.drop (pj + 1) := by
        have hpp : pj - 1 + 1 = pj := by omega
        rw [hpp, List.drop_set, if_neg (by omega), Nat.sub_self]
        rw [List.drop_eq_getElem_cons hlen]
        rfl
      have hD : (t.drop q).take (pj - q) =
          (t.drop q).take (pj - 1 - q) ++ [t.getD (pj - 1) 0] := by
        have hpq : pj - q = (pj - 1 - q) + 1 := by omega
        rw [hpq, List.take_succ, List.getElem?_drop]
        have hidx : q + (pj - 1 - q) = pj - 1 := by omega
        rw [hidx, List.getElem?_eq_getElem (by omega : pj - 1 < t.length)]
        rw [List.getD_eq_getElem _ _ (by omega : pj - 1 < t.length)]
        rfl
      refine ⟨q, hq1, by omega, ?_, ?_, ?_⟩
      · rw [heq, hA, hB, hC, hD, List.append_assoc]
        simp
      · rcases hstop with h | h
        · exact Or.inl h
        · refine Or.inr ?_
          rw [keyAt, getD_set_ne _ _ _ _ (by omega)] at h
          exact h
      · intro m h1 h2
        by_cases hm : m < pj - 1
        · have := hgt m h1 hm
          rw [keyAt, getD_set_ne _ _ _ _ (by omega)] at this
          exact this
        · obtain rfl : m = pj - 1 := by omega
          exact hc.2
    · rw [if_neg hc]
      refine ⟨pj, hpl, le_refl pj, ?_, ?_, fun m h1 h2 => by omega⟩
      · rw [List.set_eq_take_append_cons_drop, if_pos hlen]
        simp
      · by_cases hpl' : pl < pj
        · refine Or.inr (not_lt.1 ?_)
          intro hlt
          exact hc ⟨hpl', hlt⟩
        · exact Or.inl (by omega)

/-- Pointwise description of the insertion expression
`t.take q ++ vi :: ((t.drop q).take (pj - q) ++ t.drop (pj + 1))`. -/
lemma insert_expr_facts (t : List Nat) (q pj vi : Nat) (hq : q ≤ pj)
    (hlen : pj < t.length) :
    (t.take q ++ vi :: ((t.drop q).take (pj - q) ++ t.drop (pj + 1))).length =
      t.length ∧
    (∀ m, m < q →
      (t.take q ++ vi :: ((t.drop q).take (pj - q) ++
        t.drop (pj + 1))).getD m 0 = t.getD m 0) ∧
    (t.take q ++ vi :: ((t.drop q).take (pj - q) ++
      t.drop (pj + 1))).getD q 0 = vi ∧
    (∀ m, q ≤ m → m < pj →
      (t.take q ++ vi :: ((t.drop q).take (pj - q) ++
        t.drop (pj + 1))).getD (m + 1) 0 = t.getD m 0) ∧
    (∀ m, pj < m →
      (t.take q ++ vi :: ((t.drop q).take (pj - q) ++
        t.drop (pj + 1))).getD m 0 = t.getD m 0) := by
  have hA : (t.take q).length = q := List.length_take_of_le (by omega)
  have hM : ((t.drop q).take (pj - q)).length = pj - q := by
    rw [List.length_take_of_le]
    rw [List.length_drop]
    omega
  refine ⟨?_, ?_, ?_, ?_, ?_⟩
  · rw [List.length_append, List.length_cons, List.length_append, hA, hM,
      List.length_drop]
    omega
  · intro m hm
    rw [List.getD_eq_getElem?_getD, List.getElem?_append, if_pos (by omega),
      List.getElem?_take_of_lt (by omega), ← List.getD_eq_getElem?_getD]
  · rw [List.getD_eq_getElem?_getD, List.getElem?_append_right (by omega),
      hA, Nat.sub_self, List.getElem?_cons_zero]
    rfl
  · intro m h1 h2
    rw [List.getD_eq_getElem?_getD, List.getElem?_append_right (by omega), hA]
    have hs : m + 1 - q = (m - q) + 1 := by omega
    rw [hs, List.getElem?_cons_succ, List.getElem?_append, if_pos (by omega),
      List.getElem?_take_of_lt (by omega), List.getElem?_drop]
    have hi : q + (m - q) = m := by omega
    rw [hi, ← List.getD_eq_getElem?_getD]
  · intro m hm
    rw [List.getD_eq_getElem?_getD, List.getElem?_append_right (by omega), hA]
    have hs : m - q = (m - q - 1) + 1 := by omega
    rw [hs, List.getElem?_cons_succ, List.getElem?_append_right (by omega),
      hM, List.getElem?_drop]
    have hi : pj + 1 + (m - q - 1 - (pj - q)) = m := by omega
    rw [hi, ← List.getD_eq_getElem?_getD]

/-- The insertion expression permutes `t` when the inserted element is the
one read at position `pj`. -/
lemma insert_expr_perm (t : List Nat) (q pj : Nat) (hq : q ≤ pj)
    (hlen : pj < t.length) :
    (t.take q ++ t.getD pj 0 ::
      ((t.drop q).take (pj - q) ++ t.drop (pj + 1))).Perm t := by
  have hsplit : t = t.take q ++ ((t.drop q).take (pj - q) ++ t.drop pj) := by
    have h1 : (t.drop q).drop (pj - q) = t.drop pj := by
      rw [List.drop_drop]
      congr 1
      omega
    rw [← h1, List.take_append_drop, List.take_append_drop]
  have hdrop : t.drop pj = t.getD pj 0 :: t.drop (pj + 1) := by
    rw [List.drop_eq_getElem_cons hlen, List.getD_eq_getElem _ _ hlen]
  refine List.Perm.append_left (t.take q) ?_ |>.trans (by rw [← hsplit])
  rw [hdrop]
  exact List.perm_middle.symm

/-- One step of the outer insertion loop: inserting the element at `pi` into
the sorted prefix `[pl, pi - 1]` permutes only `[pl, pi]` and sorts
`[pl, pi]`. -/
lemma npInsertStep_spec (v : List Int) (pl pi : Nat) (t : List Nat)
    (hpl : pl + 1 ≤ pi) (hlen : pi < t.length)
    (hsorted : SegSortedAdj v t pl (pi - 1)) :
    SegOp pl pi t (npInsertInner v t pl (t.getD pi 0) pi pi) ∧
    SegSortedAdj v (npInsertInner v t pl (t.getD pi 0) pi pi) pl pi := by
  obtain ⟨q, hq1, hq2, heq, hstop, hgt⟩ :=
    npInsertInner_spec v pl (t.getD pi 0) pi pi t (by omega) (by omega) hlen
  obtain ⟨hlen', hbelow, hat, hshift, habove⟩ :=
    insert_expr_facts t q pi (t.getD pi 0) hq2 hlen
  have hperm := insert_expr_perm t q pi hq2 hlen
  rw [← heq] at hlen' hbelow hat hshift habove hperm
  constructor
  · refine ⟨hperm, ?_⟩
    intro k hk
    rcases hk with hk | hk
    · exact hbelow k (by omega)
    · exact habove k hk
  · intro k hk1 hk2
    rcases Nat.lt_trichotomy (k + 1) q with h | h | h
    · rw [keyAt, keyAt, hbelow k (by omega), hbelow (k + 1) (by omega)]
      exact hsorted k hk1 (by omega)
    · rw [keyAt, keyAt, hbelow k (by omega), h, hat]
      rcases hstop with hq | hq
      · omega
      · rw [keyAt] at hq
        have : k = q - 1 := by omega
        rw [this]
        exact hq
    · by_cases hkq : k = q
      · subst hkq
        have hsh := hshift k (le_refl k) (by omega)
        rw [keyAt, keyAt, hat, hsh]
        exact le_of_lt (hgt k (le_refl k) (by omega))
      · have hk1' : q ≤ k - 1 := by omega
        have hk2' : k - 1 < pi := by omega
        have hsh1 := hshift (k - 1) hk1' (by omega)
        have hsh2 := hshift k (by omega) (by omega)
        have hkk : k - 1 + 1 = k := by omega
        rw [hkk] at hsh1
        rw [keyAt, keyAt, hsh1, hsh2]
        have := hsorted (k - 1) (by omega) (by omega)
        rw [keyAt, keyAt, hkk] at this
        exact this

lemma npInsertSortFrom_spec (v : List Int) (pl pr : Nat) :
    ∀ (fuel pi : Nat) (t : List Nat), pr + 1 ≤ pi + fuel → pl + 1 ≤ pi →
      pr < t.length → SegSortedAdj v t pl (pi - 1) →
      SegOp pl pr t (npInsertSortFrom v pl pr fuel t pi) ∧
      SegSortedAdj v (npInsertSortFrom v pl pr fuel t pi) pl pr := by
  intro fuel
  induction fuel with
  | zero =>
    intro pi t hfuel hpl hlen hsorted
    rw [npInsertSortFrom]
    exact ⟨SegOp.refl pl pr t, fun k h1 h2 => hsorted k h1 (by omega)⟩
  | succ fuel ih =>
    intro pi t hfuel hpl hlen hsorted
    rw [npInsertSortFrom]
    by_cases hpi : pi ≤ pr
    · rw [if_pos hpi]
      obtain ⟨hop, hsorted'⟩ := npInsertStep_spec v pl pi t hpl (by omega)
        hsorted
      have hlen1 : (npInsertInner v t pl (t.getD pi 0) pi pi).length =
          t.length := hop.length_eq _ _ _ _
      have hlen2 : pr < (npInsertInner v t pl (t.getD pi 0) pi pi).length := by
        rw [hlen1]
        omega
      obtain ⟨hop2, hsorted2⟩ := ih (pi + 1) _ (by omega) (by omega)
        hlen2 (by simpa using hsorted')
      exact ⟨SegOp.trans pl pr _ _ _ (SegOp.mono pl pr pl pi _ _ (le_refl pl)
        hpi hop) hop2, hsorted2⟩
    · rw [if_neg hpi]
      exact ⟨SegOp.refl pl pr t, fun k h1 h2 => hsorted k h1 (by omega)⟩

/-- numpy's insertion sort of a segment: a segment-only permutation leaving
the segment sorted. -/
lemma npInsertSortSeg_spec (v : List Int) (t : List Nat) (pl pr : Nat)
    (hlen : pr < t.length) :
    SegOp pl pr t (npInsertSortSeg v t pl pr) ∧
    SegSortedAdj v (npInsertSortSeg v t pl pr) pl pr := by
  rw [npInsertSortSeg]
  exact npInsertSortFrom_spec v pl pr (pr + 1 - pl) (pl + 1) t (by omega)
    (by omega) hlen (fun k h1 h2 => by omega)

lemma cons_middle_swap (a b : Nat) (M B : List Nat) :
    (a :: (M ++ b :: B)).Perm (b :: (M ++ a :: B)) := by
  refine ((List.perm_middle).cons a).trans ?_
  refine List.Perm.trans (List.Perm.swap b a _) ?_
  exact (List.perm_middle.symm).cons b

lemma set_getD_self (l : List Nat) (i : Nat) (h : i < l.length) :
    l.set i (l.getD i 0) = l := by
  apply List.ext_getElem?
  intro k
  by_cases hk : k = i
  · subst hk
    rw [List.getElem?_set_self h, List.getD_eq_getElem _ _ h,
      List.getElem?_eq_getElem h]
  · rw [List.getElem?_set_ne (fun he => hk he.symm)]

/-- Decomposition of a list around two positions `i < j`. -/
lemma split_at_two (t : List Nat) (i j : Nat) (hij : i < j)
    (hj : j < t.length) :
    t = t.take i ++ t.getD i 0 ::
      ((t.drop (i + 1)).take (j - i - 1) ++ t.getD j 0 :: t.drop (j + 1)) := by
  have hd : t.drop (i + 1) = (t.drop (i + 1)).take (j - i - 1) ++
      t.getD j 0 :: t.drop (j + 1) := by
    conv_lhs => rw [← List.take_append_drop (j - i - 1) (t.drop (i + 1))]
    congr 1
    rw [List.drop_drop]
    have hidx : i + 1 + (j - i - 1) = j := by omega
    rw [hidx, List.drop_eq_getElem_cons hj, List.getD_eq_getElem _ _ hj]
  conv_lhs => rw [← List.take_append_drop i t,
    List.drop_eq_getElem_cons (by omega : i < t.length), hd]
  rw [List.getD_eq_getElem _ _ (by omega : i < t.length)]

/-- The swap written as an explicit list expression, for `i < j`. -/
lemma npSwap_eq (t : List Nat) (i j : Nat) (hij : i < j) (hj : j < t.length) :
    npSwap t i j = t.take i ++ t.getD j 0 ::
      ((t.drop (i + 1)).take (j - i - 1) ++ t.getD i 0 :: t.drop (j + 1)) := by
  have hi : i < t.length := by omega
  have hA : (t.take i).length = i := List.length_take_of_le (by omega)
  have hM : ((t.drop (i + 1)).take (j - i - 1)).length = j - i - 1 := by
    rw [List.length_take_of_le]
    rw [List.length_drop]
    omega
  apply List.ext_getElem?
  intro k
  rw [npSwap]
  by_cases hk1 : k < i
  · rw [List.getElem?_set_ne (by omega), List.getElem?_set_ne (by omega),
      List.getElem?_append, if_pos (by rw [hA]; omega),
      List.getElem?_take_of_lt hk1]
  by_cases hk2 : k = i
  · subst hk2
    rw [List.getElem?_set_ne (by omega), List.getElem?_set_self (by omega),
      List.getElem?_append_right hA.le, hA, Nat.sub_self,
      List.getElem?_cons_zero]
  by_cases hk3 : k < j
  · rw [List.getElem?_set_ne (by omega), List.getElem?_set_ne (by omega),
      List.getElem?_append_right (by rw [hA]; omega), hA]
    rw [List.getElem?_cons, if_neg (by omega), List.getElem?_append,
      if_pos (by rw [hM]; omega), List.getElem?_take_of_lt (by omega),
      List.getElem?_drop]
    congr 1
    omega
  by_cases hk4 : k = j
  · subst hk4
    rw [List.getElem?_set_self (by rw [List.length_set]; omega),
      List.getElem?_append_right (by rw [hA]; omega), hA]
    rw [List.getElem?_cons, if_neg (by omega),
      List.getElem?_append_right hM.le, hM, Nat.sub_self,
      List.getElem?_cons_zero]
  · rw [List.getElem?_set_ne (by omega), List.getElem?_set_ne (by omega),
      List.getElem?_append_right (by rw [hA]; omega), hA]
    rw [List.getElem?_cons, if_neg (by omega),
      List.getElem?_append_right (by rw [hM]; omega), hM]
    rw [List.getElem?_cons, if_neg (by omega), List.getElem?_drop]
    congr 1
    omega

lemma npSwap_perm (t : List Nat) (i j : Nat) (hi : i < t.length)
    (hj : j < t.length) : (npSwap t i j).Perm t := by
  rcases Nat.lt_trichotomy i j with h | h | h
  · rw [npSwap_eq t i j h hj]
    conv_rhs => rw [split_at_two t i j h hj]
    exact List.Perm.append_left _ (cons_middle_swap _ _ _ _)
  · subst h
    rw [npSwap, set_getD_self _ _ hi, set_getD_self _ _ hi]
  · rw [npSwap, List.set_comm _ _ _ (by omega)]
    have hgoal := npSwap_eq t j i h hi
    rw [npSwap] at hgoal
    rw [hgoal]
    conv_rhs => rw [split_at_two t j i h hi]
    exact List.Perm.append_left _ (cons_middle_swap _ _ _ _)

lemma npSwap_getD_fst (t : List Nat) (i j : Nat) (hi : i < t.length)
    (hj : j < t.length) : (npSwap t i j).getD i 0 = t.getD j 0 := by
  by_cases hij : i = j
  · subst hij
    rw [npSwap, set_getD_self _ _ hi, getD_set_self _ _ _ hi]
  · rw [npSwap, getD_set_ne _ _ _ _ hij, getD_set_self _ _ _ hi]

lemma npSwap_getD_snd (t : List Nat) (i j : Nat) (hj : j < t.length) :
    (npSwap t i j).getD j 0 = t.getD i 0 := by
  rw [npSwap, getD_set_self _ _ _ (by rw [List.length_set]; omega)]

lemma npSwap_getD_other (t : List Nat) (i j k : Nat) (h1 : k ≠ i)
    (h2 : k ≠ j) : (npSwap t i j).getD k 0 = t.getD k 0 := by
  rw [npSwap, getD_set_ne _ _ _ _ h2, getD_set_ne _ _ _ _ h1]

lemma npScanLo_spec (v : List Int) (t : List Nat) (vp : Int) :
    ∀ (fuel pi s : Nat), pi < s → s ≤ pi + fuel →
      ¬ (keyAt v t s < vp) →
      pi < npScanLo v t vp fuel pi ∧ npScanLo v t vp fuel pi ≤ s ∧
      ¬ (keyAt v t (npScanLo v t vp fuel pi) < vp) ∧
      ∀ m, pi < m → m < npScanLo v t vp fuel pi → keyAt v t m < vp := by
  intro fuel
  induction fuel with
  | zero =>
    intro pi s h1 h2 h3
    omega
  | succ fuel ih =>
    intro pi s h1 h2 h3
    rw [npScanLo]
    by_cases hc : keyAt v t (pi + 1) < vp
    · rw [if_pos hc]
      have hs : pi + 1 < s := by
        rcases Nat.lt_or_ge (pi + 1) s with h | h
        · exact h
        · exfalso
          have : s = pi + 1 := by omega
          rw [this] at h3
          exact h3 hc
      obtain ⟨g1, g2, g3, g4⟩ := ih (pi + 1) s hs (by omega) h3
      refine ⟨by omega, g2, g3, ?_⟩
      intro m hm1 hm2
      by_cases hm : m = pi + 1
      · rw [hm]
        exact hc
      · exact g4 m (by omega) hm2
    · rw [if_neg hc]
      exact ⟨by omega, by omega, hc, fun m h1 h2 => by omega⟩

lemma npScanHi_spec (v : List Int) (t : List Nat) (vp : Int) :
    ∀ (fuel pj s : Nat), s < pj → pj ≤ s + fuel →
      ¬ (vp < keyAt v t s) →
      npScanHi v t vp fuel pj < pj ∧ s ≤ npScanHi v t vp fuel pj ∧
      ¬ (vp < keyAt v t (npScanHi v t vp fuel pj)) ∧
      ∀ m, npScanHi v t vp fuel pj < m → m < pj → vp < keyAt v t m := by
  intro fuel
  induction fuel with
  | zero =>
    intro pj s h1 h2 h3
    omega
  | succ fuel ih =>
    intro pj s h1 h2 h3
    rw [npScanHi]
    by_cases hc : vp < keyAt v t (pj - 1)
    · rw [if_pos hc]
      have hs : s < pj - 1 := by
        rcases Nat.lt_or_ge s (pj - 1) with h | h
        · exact h
        · exfalso
          have : s = pj - 1 := by omega
          rw [this] at h3
          exact h3 hc
      obtain ⟨g1, g2, g3, g4⟩ := ih (pj - 1) s hs (by omega) h3
      refine ⟨by omega, g2, g3, ?_⟩
      intro m hm1 hm2
      by_cases hm : m = pj - 1
      · rw [hm]
        exact hc
      · exact g4 m hm1 (by omega)
    · rw [if_neg hc]
      exact ⟨by omega, by omega, hc, fun m h1 h2 => by omega⟩

lemma npPartLoop_spec (v : List Int) (vp : Int) (pl pr : Nat) :
    ∀ (fuel : Nat) (t : List Nat) (pi pj : Nat),
      pl ≤ pi → pi < pj → pj ≤ pr - 1 → pr < t.length → pj - pi ≤ fuel →
      (∀ k, pl ≤ k → k ≤ pi → keyAt v t k ≤ vp) →
      (∀ k, pj ≤ k → k ≤ pr - 1 → vp ≤ keyAt v t k) →
      ((npPartLoop v vp fuel t pi pj).1).Perm t ∧
      (∀ k, k ≤ pi ∨ pj ≤ k →
        ((npPartLoop v vp fuel t pi pj).1).getD k 0 = t.getD k 0) ∧
      pi < (npPartLoop v vp fuel t pi pj).2 ∧
      (npPartLoop v vp fuel t pi pj).2 ≤ pj ∧
      (∀ k, pl ≤ k → k < (npPartLoop v vp fuel t pi pj).2 →
        keyAt v ((npPartLoop v vp fuel t pi pj).1) k ≤ vp) ∧
      (∀ k, (npPartLoop v vp fuel t pi pj).2 ≤ k → k ≤ pr - 1 →
        vp ≤ keyAt v ((npPartLoop v vp fuel t pi pj).1) k) := by
  intro fuel
  induction fuel with
  | zero =>
    intro t pi pj h1 h2 h3 h4 h5 H1 H2
    exact absurd h5 (by omega)
  | succ fuel ih =>
    intro t pi pj h1 h2 h3 h4 h5 H1 H2
    obtain ⟨s1a, s1b, s1c, s1d⟩ := npScanLo_spec v t vp t.length pi pj h2
      (by omega) (not_lt.2 (H2 pj (le_refl pj) h3))
    obtain ⟨s2a, s2b, s2c, s2d⟩ := npScanHi_spec v t vp t.length pj pi h2
      (by omega) (not_lt.2 (H1 pi h1 (le_refl pi)))
    rw [npPartLoop]
    by_cases hcase : npScanLo v t vp t.length pi < npScanHi v t vp t.length pj
    · rw [if_pos hcase]
      have hswlen : (npSwap t (npScanLo v t vp t.length pi)
          (npScanHi v t vp t.length pj)).length = t.length := by
        rw [npSwap, List.length_set, List.length_set]
      have hlo_lt : npScanLo v t vp t.length pi < t.length := by omega
      have hhi_lt : npScanHi v t vp t.length pj < t.length := by omega
      have hH1' : ∀ k, pl ≤ k → k ≤ npScanLo v t vp t.length pi →
          keyAt v (npSwap t (npScanLo v t vp t.length pi)
            (npScanHi v t vp t.length pj)) k ≤ vp := by
        intro k hk1 hk2
        by_cases hk : k = npScanLo v t vp t.length pi
        · rw [keyAt, hk, npSwap_getD_fst _ _ _ hlo_lt hhi_lt]
          exact not_lt.1 s2c
        · rw [keyAt, npSwap_getD_other _ _ _ _ hk (by omega)]
          by_cases hk' : k ≤ pi
          · exact H1 k hk1 hk'
          · exact le_of_lt (s1d k (by omega) (by omega))
      have hH2' : ∀ k, npScanHi v t vp t.length pj ≤ k → k ≤ pr - 1 →
          vp ≤ keyAt v (npSwap t (npScanLo v t vp t.length pi)
            (npScanHi v t vp t.length pj)) k := by
        intro k hk1 hk2
        by_cases hk : k = npScanHi v t vp t.length pj
        · rw [keyAt, hk, npSwap_getD_snd _ _ _ hhi_lt]
          exact not_lt.1 s1c
        · rw [keyAt, npSwap_getD_other _ _ _ _ (by omega) hk]
          by_cases hk' : k < pj
          · exact le_of_lt (s2d k (by omega) hk')
          · exact H2 k (by omega) hk2
      obtain ⟨g1, g2, g3, g4, g5, g6⟩ := ih
        (npSwap t (npScanLo v t vp t.length pi) (npScanHi v t vp t.length pj))
        (npScanLo v t vp t.length pi) (npScanHi v t vp t.length pj)
        (by omega) hcase (by omega) (by omega) (by omega) hH1' hH2'
      refine ⟨g1.trans (npSwap_perm t _ _ hlo_lt hhi_lt), ?_, by omega,
        by omega, g5, g6⟩
      intro k hk
      have hk2 : k ≤ npScanLo v t vp t.length pi ∨
          npScanHi v t vp t.length pj ≤ k := by
        rcases hk with hk | hk
        · exact Or.inl (by omega)
        · exact Or.inr (by omega)
      rw [g2 k hk2]
      rcases hk with hk | hk
      · exact npSwap_getD_other _ _ _ _ (by omega) (by omega)
      · exact npSwap_getD_other _ _ _ _ (by omega) (by omega)
    · rw [if_neg hcase]
      refine ⟨List.Perm.refl t, fun k hk => rfl, s1a, s1b, ?_, ?_⟩
      · intro k hk1 hk2
        by_cases hk : k ≤ pi
        · exact H1 k hk1 hk
        · exact le_of_lt (s1d k (by omega) hk2)
      · intro k hk1 hk2
        by_cases hk : k = npScanLo v t vp t.length pi
        · rw [hk]
          exact not_lt.1 s1c
        · by_cases hk' : pj ≤ k
          · exact H2 k hk' hk2
          · exact le_of_lt (s2d k (by omega) (by omega))

lemma npPartition_spec (v : List Int) (t : List Nat) (pl pr : Nat)
    (hseg : 15 < pr - pl) (hlen : pr < t.length) :
    ∀ t' pi, npPartition v t pl pr = (t', pi) →
      SegOp pl pr t t' ∧ pl < pi ∧ pi < pr ∧
      (∀ k, pl ≤ k → k < pi → keyAt v t' k ≤ keyAt v t' pi) ∧
      (∀ k, pi < k → k ≤ pr → keyAt v t' pi ≤ keyAt v t' k) := by
  have hpm1 : pl < pl + (pr - pl) / 2 := by omega
  have hpm2 : pl + (pr - pl) / 2 < pr - 1 := by omega
  intro t' pi heq
  rw [npPartition] at heq
  set pm := pl + (pr - pl) / 2 with hpm
  set t1 := if keyAt v t pm < keyAt v t pl then npSwap t pm pl else t with ht1
  set t2 := if keyAt v t1 pr < keyAt v t1 pm then npSwap t1 pr pm else t1
    with ht2
  set t3 := if keyAt v t2 pm < keyAt v t2 pl then npSwap t2 pm pl else t2
    with ht3
  set vp := keyAt v t3 pm with hvp
  set t4 := npSwap t3 pm (pr - 1) with ht4
  -- bookkeeping for the three conditional swaps
  have hlen1 : t1.length = t.length := by
    rw [ht1]
    split
    · rw [npSwap, List.length_set, List.length_set]
    · rfl
  have hlen2 : t2.length = t.length := by
    rw [ht2]
    split
    · rw [npSwap, List.length_set, List.length_set, hlen1]
    · exact hlen1
  have hlen3 : t3.length = t.length := by
    rw [ht3]
    split
    · rw [npSwap, List.length_set, List.length_set, hlen2]
    · exact hlen2
  have hlen4 : t4.length = t.length := by
    rw [ht4, npSwap, List.length_set, List.length_set, hlen3]
  have hperm1 : t1.Perm t := by
    rw [ht1]
    split
    · exact npSwap_perm t _ _ (by omega) (by omega)
    · exact List.Perm.refl t
  have hout1 : ∀ k, (k < pl ∨ pr < k) → t1.getD k 0 = t.getD k 0 := by
    intro k hk
    rw [ht1]
    split
    · exact npSwap_getD_other _ _ _ _ (by omega) (by omega)
    · rfl
  have hperm2 : t2.Perm t1 := by
    rw [ht2]
    split
    · exact npSwap_perm t1 _ _ (by omega) (by omega)
    · exact List.Perm.refl t1
  have hout2 : ∀ k, (k < pl ∨ pr < k) → t2.getD k 0 = t1.getD k 0 := by
    intro k hk
    rw [ht2]
    split
    · exact npSwap_getD_other _ _ _ _ (by omega) (by omega)
    · rfl
  have hperm3 : t3.Perm t2 := by
    rw [ht3]
    split
    · exact npSwap_perm t2 _ _ (by omega) (by omega)
    · exact List.Perm.refl t2
  have hout3 : ∀ k, (k < pl ∨ pr < k) → t3.getD k 0 = t2.getD k 0 := by
    intro k hk
    rw [ht3]
    split
    · exact npSwap_getD_other _ _ _ _ (by omega) (by omega)
    · rfl
  -- the median-of-three invariants
  have hK1 : keyAt v t1 pl ≤ keyAt v t1 pm := by
    rw [ht1]
    split
    · rw [keyAt, keyAt, npSwap_getD_snd _ _ _ (by omega),
        npSwap_getD_fst _ _ _ (by omega) (by omega)]
      next h => exact le_of_lt h
    · next h => exact not_lt.1 h
  have hK2a : keyAt v t2 pm ≤ keyAt v t2 pr := by
    rw [ht2]
    split
    · rw [keyAt, keyAt, npSwap_getD_snd _ _ _ (by omega),
        npSwap_getD_fst _ _ _ (by rw [hlen1]; omega) (by omega)]
      next h => exact le_of_lt h
    · next h => exact not_lt.1 h
  have hK2b : keyAt v t2 pl ≤ keyAt v t2 pm ∨
      keyAt v t2 pl ≤ keyAt v t2 pr := by
    rw [ht2]
    split
    · refine Or.inr ?_
      rw [keyAt, keyAt, npSwap_getD_fst _ _ _ (by rw [hlen1]; omega)
        (by omega), npSwap_getD_other _ _ _ _ (by omega) (by omega)]
      exact hK1
    · exact Or.inl hK1
  have hM1 : keyAt v t3 pl ≤ keyAt v t3 pm := by
    rw [ht3]
    split
    · rw [keyAt, keyAt, npSwap_getD_snd _ _ _ (by rw [hlen2]; omega),
        npSwap_getD_fst _ _ _ (by rw [hlen2]; omega) (by rw [hlen2]; omega)]
      next h => exact le_of_lt h
    · next h => exact not_lt.1 h
  have hM2 : keyAt v t3 pm ≤ keyAt v t3 pr := by
    rw [ht3]
    split
    · next h =>
      rw [keyAt, keyAt, npSwap_getD_fst _ _ _ (by rw [hlen2]; omega)
        (by rw [hlen2]; omega), npSwap_getD_other _ _ _ _ (by omega)
        (by omega)]
      rcases hK2b with hb | hb
      · exact absurd h (not_lt.2 hb)
      · exact hb
    · exact hK2a
  -- the array handed to the swap loop
  have h4pl : keyAt v t4 pl ≤ vp := by
    rw [ht4, keyAt, npSwap_getD_other _ _ _ _ (by omega) (by omega)]
    exact hM1
  have h4piv : keyAt v t4 (pr - 1) = vp := by
    rw [ht4, keyAt, npSwap_getD_snd _ _ _ (by rw [hlen3]; omega)]
    rfl
  have h4pr : vp ≤ keyAt v t4 pr := by
    rw [ht4, keyAt, npSwap_getD_other _ _ _ _ (by omega) (by omega)]
    exact hM2
  obtain ⟨g1, g2, g3, g4, g5, g6⟩ := npPartLoop_spec v vp pl pr
    (t4.length + 1) t4 pl (pr - 1) (le_refl pl) (by omega) (le_refl _)
    (by rw [hlen4]; omega) (by omega)
    (fun k hk1 hk2 => by
      have hkpl : k = pl := by omega
      rw [hkpl]
      exact h4pl)
    (fun k hk1 hk2 => by
      have hkpr : k = pr - 1 := by omega
      rw [hkpr, h4piv])
  set s := npPartLoop v vp (t4.length + 1) t4 pl (pr - 1) with hs
  obtain ⟨rfl, rfl⟩ : t' = npSwap s.1 s.2 (pr - 1) ∧ pi = s.2 := by
    have h1 := congrArg Prod.fst heq
    have h2 := congrArg Prod.snd heq
    exact ⟨h1.symm, h2.symm⟩
  have hlen5 : s.1.length = t.length := by
    rw [g1.length_eq, hlen4]
  have hs2len : s.2 < t.length := by omega
  have hfin_piv : (npSwap s.1 s.2 (pr - 1)).getD s.2 0 = t4.getD (pr - 1) 0 := by
    rw [npSwap_getD_fst _ _ _ (by omega) (by rw [hlen5]; omega)]
    exact g2 (pr - 1) (Or.inr (le_refl _))
  have hkey_piv : keyAt v (npSwap s.1 s.2 (pr - 1)) s.2 = vp := by
    rw [keyAt, hfin_piv]
    exact h4piv
  refine ⟨?_, by omega, by omega, ?_, ?_⟩
  · constructor
    · refine ((npSwap_perm s.1 s.2 (pr - 1) (by omega)
        (by rw [hlen5]; omega)).trans ?_)
      exact (g1.trans (npSwap_perm t3 pm (pr - 1) (by rw [hlen3]; omega)
        (by rw [hlen3]; omega))).trans ((hperm3.trans hperm2).trans hperm1)
    · intro k hk
      rw [npSwap_getD_other _ _ _ _ (by omega) (by omega)]
      have hk2 : k ≤ pl ∨ pr - 1 ≤ k := by omega
      rw [g2 k hk2, ht4, npSwap_getD_other _ _ _ _ (by omega) (by omega),
        hout3 k hk, hout2 k hk, hout1 k hk]
  · intro k hk1 hk2
    rw [hkey_piv, keyAt, npSwap_getD_other _ _ _ _ (by omega) (by omega)]
    exact g5 k hk1 hk2
  · intro k hk1 hk2
    rw [hkey_piv]
    by_cases hk3 : k = pr - 1
    · rw [hk3, keyAt, npSwap_getD_snd _ _ _ (by rw [hlen5]; omega)]
      exact g6 s.2 (le_refl _) (by omega)
    · by_cases hk4 : k = pr
      · rw [hk4, keyAt, npSwap_getD_other _ _ _ _ (by omega) (by omega),
          g2 pr (Or.inr (by omega))]
        exact h4pr
      · rw [keyAt, npSwap_getD_other _ _ _ _ (by omega) (by omega)]
        exact g6 k (by omega) (by omega)

/-- Writing `tmp` into the hole at node `i` finishes a sift-down when both
children of `i` (if any) carry keys at most `tmp`'s. -/
lemma sift_write_spec (v : List Int) (base n tmp lo : Nat) (hlo : 1 ≤ lo)
    (t : List Nat) (i : Nat) (hloi : lo ≤ i) (hin : i ≤ n)
    (hbound : base + n ≤ t.length)
    (ha : ∀ k, lo ≤ k → k ≠ i → HeapAt v t base n k)
    (hb : i = lo ∨ (v.getD tmp 0 ≤ keyAt v t (base + i / 2 - 1) ∧
      ∀ c, (c = 2 * i ∨ c = 2 * i + 1) → c ≤ n →
        keyAt v t (base + c - 1) ≤ keyAt v t (base + i / 2 - 1)))
    (hc1 : 2 * i ≤ n → keyAt v t (base + 2 * i - 1) ≤ v.getD tmp 0)
    (hc2 : 2 * i + 1 ≤ n → keyAt v t (base + 2 * i) ≤ v.getD tmp 0) :
    ∀ k, lo ≤ k → HeapAt v (t.set (base + i - 1) tmp) base n k := by
  have hipos : base + i - 1 < t.length := by omega
  have hkey_i : keyAt v (t.set (base + i - 1) tmp) (base + i - 1) =
      v.getD tmp 0 := by
    rw [keyAt, getD_set_self _ _ _ hipos]
  intro k hk
  by_cases hki : k = i
  · subst hki
    constructor
    · intro h2k
      rw [keyAt, getD_set_ne _ _ _ _ (by omega), hkey_i]
      exact hc1 h2k
    · intro h2k
      rw [keyAt, getD_set_ne _ _ _ _ (by omega), hkey_i]
      exact hc2 h2k
  · by_cases hkpar : k = i / 2
    · have hilo : i ≠ lo := by
        intro hcon
        rw [hcon] at hkpar
        omega
      obtain ⟨hb1, hb2⟩ := hb.resolve_left hilo
      have hkpos : keyAt v (t.set (base + i - 1) tmp) (base + k - 1) =
          keyAt v t (base + k - 1) := by
        simp only [keyAt]
        rw [getD_set_ne _ _ _ _ (by omega)]
      constructor
      · intro h2k
        rw [hkpos]
        by_cases hci : 2 * k = i
        · rw [keyAt, hci, getD_set_self _ _ _ hipos, hkpar]
          exact hb1
        · rw [keyAt, getD_set_ne _ _ _ _ (by omega)]
          exact (ha k hk hki).1 h2k
      · intro h2k
        rw [hkpos]
        by_cases hci : 2 * k + 1 = i
        · have hpos : base + (2 * k + 1) - 1 = base + 2 * k := by omega
          rw [keyAt, show base + 2 * k = base + i - 1 from by omega,
            getD_set_self _ _ _ hipos, hkpar]
          exact hb1
        · rw [keyAt, getD_set_ne _ _ _ _ (by omega)]
          exact (ha k hk hki).2 h2k
    · have hne1 : 2 * k ≠ i := by omega
      have hne2 : 2 * k + 1 ≠ i := by omega
      constructor
      · intro h2k
        rw [keyAt, keyAt, getD_set_ne _ _ _ _ (by omega),
          getD_set_ne _ _ _ _ (by omega)]
        exact (ha k hk hki).1 h2k
      · intro h2k
        rw [keyAt, keyAt, getD_set_ne _ _ _ _ (by omega),
          getD_set_ne _ _ _ _ (by omega)]
        exact (ha k hk hki).2 h2k

lemma keyAt_set_ne (v : List Int) (t : List Nat) (p x q : Nat) (h : q ≠ p) :
    keyAt v (t.set p x) q = keyAt v t q := by
  rw [keyAt, getD_set_ne _ _ _ _ h]
  rfl

lemma keyAt_set_self (v : List Int) (t : List Nat) (p x : Nat) (h : p < t.length) :
    keyAt v (t.set p x) p = v.getD x 0 := by
  rw [keyAt, getD_set_self _ _ _ h]

/-- Full correctness of `npSiftDown`: starting from a hole at node `i`
(with `j = 2 i`), given that every other node from `lo` on satisfies the
heap relation and the dominance side conditions for the hole's parent, the
sift terminates in a list that is a permutation of `t` with `tmp` written
into the hole, touches only the segment from the hole onward, and is a
max-heap from `lo` on. -/
lemma npSiftDown_spec (v : List Int) (base n tmp lo : Nat) (hlo : 1 ≤ lo) :
    ∀ (fuel : Nat) (t : List Nat) (i j : Nat), lo ≤ i → i ≤ n → j = i + i →
      n < j * 2 ^ fuel → base + n ≤ t.length →
      (∀ k, lo ≤ k → k ≠ i → HeapAt v t base n k) →
      (i = lo ∨ (v.getD tmp 0 ≤ keyAt v t (base + i / 2 - 1) ∧
        ∀ c, (c = 2 * i ∨ c = 2 * i + 1) → c ≤ n →
          keyAt v t (base + c - 1) ≤ keyAt v t (base + i / 2 - 1))) →
      (npSiftDown v base n tmp fuel t i j).length = t.length ∧
      (∀ m, m < base + i - 1 ∨ base + n - 1 < m →
        (npSiftDown v base n tmp fuel t i j).getD m 0 = t.getD m 0) ∧
      (npSiftDown v base n tmp fuel t i j).Perm (t.set (base + i - 1) tmp) ∧
      (∀ k, lo ≤ k → HeapAt v (npSiftDown v base n tmp fuel t i j) base n k) := by
  intro fuel
  induction fuel with
  | zero =>
    intro t i j hloi hin hj hfuel hbound ha hb
    subst hj
    have hjn : n < i + i := by simpa using hfuel
    rw [npSiftDown]
    refine ⟨by rw [List.length_set], ?_, List.Perm.refl _,
      sift_write_spec v base n tmp lo hlo t i hloi hin hbound ha hb
        (fun h => absurd h (by omega)) (fun h => absurd h (by omega))⟩
    intro m hm
    exact getD_set_ne _ _ _ _ (by omega)
  | succ fuel ih =>
    intro t i j hloi hin hj hfuel hbound ha hb
    subst hj
    by_cases hjn : i + i ≤ n
    · rw [npSiftDown, if_pos hjn]
      dsimp only
      set J := if i + i < n ∧ keyAt v t (base + (i + i) - 1) < keyAt v t (base + (i + i))
        then i + i + 1 else i + i with hJdef
      have hJfacts : (J = i + i ∨ J = i + i + 1) ∧ J ≤ n ∧
          keyAt v t (base + (i + i) - 1) ≤ keyAt v t (base + J - 1) ∧
          (i + i + 1 ≤ n → keyAt v t (base + (i + i)) ≤ keyAt v t (base + J - 1)) := by
        rw [hJdef]
        by_cases h : i + i < n ∧ keyAt v t (base + (i + i) - 1) < keyAt v t (base + (i + i))
        · rw [if_pos h]
          have he : base + (i + i + 1) - 1 = base + (i + i) := by omega
          refine ⟨Or.inr rfl, by omega, ?_, fun _ => ?_⟩
          · rw [he]
            exact h.2.le
          · rw [he]
        · rw [if_neg h]
          refine ⟨Or.inl rfl, hjn, le_refl _, fun h2 => ?_⟩
          by_cases h3 : keyAt v t (base + (i + i) - 1) < keyAt v t (base + (i + i))
          · exact absurd ⟨by omega, h3⟩ h
          · exact not_lt.mp h3
      obtain ⟨hJor, hJle, hJc1, hJc2⟩ := hJfacts
      have hJi : i < J := by omega
      have hppos : base + i - 1 < t.length := by omega
      have hqpos : base + J - 1 < t.length := by omega
      by_cases hcond : v.getD tmp 0 < keyAt v t (base + J - 1)
      · rw [if_pos hcond]
        set t1 := t.set (base + i - 1) (t.getD (base + J - 1) 0) with ht1
        have ht1len : t1.length = t.length := by
          rw [ht1, List.length_set]
        have hb' : i = lo ∨ (v.getD (t.getD (base + J - 1) 0) 0 ≤
            keyAt v t (base + i / 2 - 1) ∧
            ∀ c, (c = 2 * i ∨ c = 2 * i + 1) → c ≤ n →
              keyAt v t (base + c - 1) ≤ keyAt v t (base + i / 2 - 1)) := by
          rcases hb with h | ⟨hb1, hb2⟩
          · exact Or.inl h
          · exact Or.inr ⟨hb2 J (by omega) hJle, hb2⟩
        have ht1heap : ∀ k, lo ≤ k → HeapAt v t1 base n k := by
          rw [ht1]
          exact sift_write_spec v base n (t.getD (base + J - 1) 0) lo hlo t i hloi hin
            hbound ha hb'
            (fun h => by
              rw [show 2 * i = i + i from by omega]
              exact hJc1)
            (fun h => by
              rw [show 2 * i = i + i from by omega]
              exact hJc2 (by omega))
        have hrecb : J = lo ∨ (v.getD tmp 0 ≤ keyAt v t1 (base + J / 2 - 1) ∧
            ∀ c, (c = 2 * J ∨ c = 2 * J + 1) → c ≤ n →
              keyAt v t1 (base + c - 1) ≤ keyAt v t1 (base + J / 2 - 1)) := by
          right
          have hJ2 : J / 2 = i := by omega
          have hpar : keyAt v t1 (base + J / 2 - 1) = keyAt v t (base + J - 1) := by
            rw [hJ2, ht1, keyAt_set_self _ _ _ _ hppos]
            rfl
          constructor
          · rw [hpar]
            exact hcond.le
          · intro c hc hcn
            rw [hpar]
            have hub := ha J (by omega) (by omega)
            rcases hc with rfl | rfl
            · rw [ht1, keyAt_set_ne _ _ _ _ _ (by omega)]
              exact hub.1 hcn
            · rw [ht1, keyAt_set_ne _ _ _ _ _ (by omega),
                show base + (2 * J + 1) - 1 = base + 2 * J from by omega]
              exact hub.2 hcn
        have hfuel' : n < (J + J) * 2 ^ fuel := by
          rw [pow_succ] at hfuel
          have h3 : (i + i) * (2 ^ fuel * 2) = ((i + i) + (i + i)) * 2 ^ fuel := by
            ring
          rw [h3] at hfuel
          have h4 : ((i + i) + (i + i)) * 2 ^ fuel ≤ (J + J) * 2 ^ fuel :=
            Nat.mul_le_mul_right _ (by omega)
          omega
        obtain ⟨ih1, ih2, ih3, ih4⟩ := ih t1 J (J + J) (by omega) hJle rfl hfuel'
          (by rw [ht1, List.length_set]; exact hbound)
          (fun k hk _ => ht1heap k hk) hrecb
        refine ⟨by rw [ih1, ht1len], ?_, ?_, ih4⟩
        · intro m hm
          rw [ih2 m (by omega), ht1, getD_set_ne _ _ _ _ (by omega)]
        · have hswap : t1.set (base + J - 1) tmp =
              npSwap (t.set (base + i - 1) tmp) (base + i - 1) (base + J - 1) := by
            rw [ht1, npSwap, getD_set_ne _ _ _ _ (by omega),
              getD_set_self _ _ _ hppos, List.set_set]
          rw [hswap] at ih3
          exact ih3.trans (npSwap_perm _ _ _
            (by rw [List.length_set]; omega) (by rw [List.length_set]; omega))
      · rw [if_neg hcond]
        have hnl : keyAt v t (base + J - 1) ≤ v.getD tmp 0 := not_lt.mp hcond
        refine ⟨by rw [List.length_set], ?_, List.Perm.refl _,
          sift_write_spec v base n tmp lo hlo t i hloi hin hbound ha hb ?_ ?_⟩
        · intro m hm
          exact getD_set_ne _ _ _ _ (by omega)
        · intro h2k
          rw [show 2 * i = i + i from by omega]
          exact hJc1.trans hnl
        · intro h2k
          rw [show 2 * i = i + i from by omega]
          exact (hJc2 (by omega)).trans hnl
    · rw [npSiftDown, if_neg hjn]
      refine ⟨by rw [List.length_set], ?_, List.Perm.refl _,
        sift_write_spec v base n tmp lo hlo t i hloi hin hbound ha hb
          (fun h => absurd h (by omega)) (fun h => absurd h (by omega))⟩
      intro m hm
      exact getD_set_ne _ _ _ _ (by omega)

/-- The heapify loop turns the segment into a max-heap: if every node
above the loop counter already satisfies the heap relation, running the
loop down to `1` yields a permutation of the segment that is a heap
everywhere, touching only the segment. -/
lemma npHeapifyLoop_spec (v : List Int) (base n : Nat) :
    ∀ (l : Nat) (t : List Nat), l + l ≤ n → base + n ≤ t.length →
      (∀ k, l + 1 ≤ k → HeapAt v t base n k) →
      (npHeapifyLoop v base n l t).length = t.length ∧
      (∀ m, m < base ∨ base + n - 1 < m →
        (npHeapifyLoop v base n l t).getD m 0 = t.getD m 0) ∧
      (npHeapifyLoop v base n l t).Perm t ∧
      (∀ k, 1 ≤ k → HeapAt v (npHeapifyLoop v base n l t) base n k) := by
  intro l
  induction l with
  | zero =>
    intro t hl hbound hpre
    rw [npHeapifyLoop]
    exact ⟨rfl, fun m _ => rfl, List.Perm.refl _, fun k hk => hpre k hk⟩
  | succ l ih =>
    intro t hl hbound hpre
    rw [npHeapifyLoop]
    have hfuel : n < ((l + 1) + (l + 1)) * 2 ^ (n + 1) := by
      have h1 : n < 2 ^ (n + 1) :=
        lt_of_lt_of_le (Nat.lt_two_pow n) (Nat.pow_le_pow_right (by omega) (by omega))
      have h2 : 2 ^ (n + 1) ≤ ((l + 1) + (l + 1)) * 2 ^ (n + 1) :=
        Nat.le_mul_of_pos_left _ (by omega)
      omega
    obtain ⟨hs1, hs2, hs3, hs4⟩ := npSiftDown_spec v base n
      (t.getD (base + l + 1 - 1) 0) (l + 1) (by omega) (n + 1) t (l + 1)
      ((l + 1) + (l + 1)) (le_refl _) (by omega) rfl hfuel hbound
      (fun k hk hki => hpre k (by omega)) (Or.inl rfl)
    have hsetid : t.set (base + (l + 1) - 1) (t.getD (base + l + 1 - 1) 0) = t := by
      have h : base + (l + 1) - 1 = base + l + 1 - 1 := by omega
      rw [h, set_getD_self _ _ (by omega)]
    rw [hsetid] at hs3
    obtain ⟨ih1, ih2, ih3, ih4⟩ := ih
      (npSiftDown v base n (t.getD (base + l + 1 - 1) 0) (n + 1) t (l + 1)
        ((l + 1) + (l + 1)))
      (by omega) (by rw [hs1]; exact hbound) (fun k hk => hs4 k hk)
    refine ⟨by rw [ih1, hs1], ?_, ih3.trans hs3, ih4⟩
    intro m hm
    rw [ih2 m hm, hs2 m (by omega)]

/-- In a max-heap every node's key is at most the root's key. -/
lemma heap_root_max (v : List Int) (t : List Nat) (base n : Nat)
    (hh : ∀ k, 1 ≤ k → HeapAt v t base n k) :
    ∀ k, 1 ≤ k → k ≤ n → keyAt v t (base + k - 1) ≤ keyAt v t base := by
  intro k
  induction k using Nat.strong_induction_on with
  | _ k ih =>
    intro hk1 hkn
    rcases Nat.lt_or_ge k 2 with h | h
    · have hk : k = 1 := by omega
      subst hk
      rw [show base + 1 - 1 = base from by omega]
    · have hp1 : 1 ≤ k / 2 := by omega
      have hrel : keyAt v t (base + k - 1) ≤ keyAt v t (base + k / 2 - 1) := by
        by_cases hpar : k % 2 = 0
        · have h1 := (hh (k / 2) hp1).1 (by omega)
          rw [show base + 2 * (k / 2) - 1 = base + k - 1 from by omega] at h1
          exact h1
        · have h1 := (hh (k / 2) hp1).2 (by omega)
          rw [show base + 2 * (k / 2) = base + k - 1 from by omega] at h1
          exact h1
      exact hrel.trans (ih (k / 2) (by omega) hp1 (by omega))

/-- The pop loop of heapsort: starting from a max-heap of size `m` at
`base`, it sorts the segment in place (ascending keys), permuting the
whole list and touching nothing outside the segment. -/
lemma npHeapPopLoop_spec (v : List Int) (base : Nat) :
    ∀ (m : Nat) (t : List Nat), base + m ≤ t.length →
      (∀ k, 1 ≤ k → HeapAt v t base m k) →
      SegOp base (base + m - 1) t (npHeapPopLoop v base m t) ∧
      SegSortedAdj v (npHeapPopLoop v base m t) base (base + m - 1) := by
  intro m
  induction m using Nat.strong_induction_on with
  | _ m ih =>
    rcases m with _ | (_ | m)
    · intro t hbound hheap
      rw [npHeapPopLoop]
      exact ⟨SegOp.refl _ _ _, fun k hk1 hk2 => absurd hk2 (by omega)⟩
    · intro t hbound hheap
      rw [npHeapPopLoop]
      exact ⟨SegOp.refl _ _ _, fun k hk1 hk2 => absurd hk2 (by omega)⟩
    · intro t hbound hheap
      show SegOp base (base + (m + 2) - 1) t (npHeapPopLoop v base (m + 2) t) ∧
        SegSortedAdj v (npHeapPopLoop v base (m + 2) t) base (base + (m + 2) - 1)
      rw [npHeapPopLoop]
      set t1 := t.set (base + m + 2 - 1) (t.getD base 0) with ht1def
      have ht1len : t1.length = t.length := by
        rw [ht1def, List.length_set]
      have hroot := heap_root_max v t base (m + 2) hheap
      have hfuel : m + 1 < 2 * 2 ^ (m + 2) := by
        have h1 : m + 1 < 2 ^ (m + 1) := Nat.lt_two_pow _
        have h2 : (2 : Nat) ^ (m + 1) ≤ 2 ^ (m + 2) :=
          Nat.pow_le_pow_right (by omega) (by omega)
        omega
      have ht1a : ∀ k, 1 ≤ k → k ≠ 1 → HeapAt v t1 base (m + 1) k := by
        intro k hk _
        have hh := hheap k hk
        constructor
        · intro h2k
          rw [ht1def, keyAt_set_ne _ _ _ _ _ (by omega),
            keyAt_set_ne _ _ _ _ _ (by omega)]
          exact hh.1 (by omega)
        · intro h2k
          rw [ht1def, keyAt_set_ne _ _ _ _ _ (by omega),
            keyAt_set_ne _ _ _ _ _ (by omega)]
          exact hh.2 (by omega)
      obtain ⟨hs1, hs2, hs3, hs4⟩ := npSiftDown_spec v base (m + 1)
        (t.getD (base + m + 2 - 1) 0) 1 (le_refl 1) (m + 2) t1 1 2 (le_refl 1)
        (by omega) rfl hfuel (by rw [ht1len]; omega) ht1a (Or.inl rfl)
      set s := npSiftDown v base (m + 1) (t.getD (base + m + 2 - 1) 0) (m + 2) t1 1 2
        with hsdef
      have hslen : s.length = t.length := by
        rw [hs1, ht1len]
      obtain ⟨hro, hrs⟩ := ih (m + 1) (by omega) s (by rw [hslen]; omega) hs4
      have hswap : t1.set (base + 1 - 1) (t.getD (base + m + 2 - 1) 0) =
          npSwap t base (base + m + 2 - 1) := by
        rw [ht1def, npSwap, show base + 1 - 1 = base from by omega]
        exact List.set_comm _ _ _ (by omega)
      rw [hswap] at hs3
      have hsperm : s.Perm t :=
        hs3.trans (npSwap_perm t base (base + m + 2 - 1) (by omega) (by omega))
      have hval_r : (npHeapPopLoop v base (m + 1) s).getD (base + m + 1) 0 =
          t.getD base 0 := by
        rw [hro.2 _ (by omega), hs2 _ (by omega), ht1def,
          show base + m + 1 = base + m + 2 - 1 from by omega,
          getD_set_self _ _ _ (by omega)]
      have hsop : SegOp base (base + m) (t1.set (base + 1 - 1)
          (t.getD (base + m + 2 - 1) 0)) s := by
        rw [hswap]
        refine ⟨hs3, fun k hk => ?_⟩
        rw [hs2 k (by omega), ht1def]
        by_cases hkq : k = base + m + 2 - 1
        · subst hkq
          rw [getD_set_self _ _ _ (by omega), npSwap_getD_snd _ _ _ (by omega)]
        · rw [getD_set_ne _ _ _ _ hkq, npSwap_getD_other _ _ _ _ (by omega) hkq]
      rw [hswap] at hsop
      have hsbound : ∀ p2, base ≤ p2 → p2 ≤ base + m →
          keyAt v s p2 ≤ keyAt v t base := by
        intro p2 hp2a hp2b
        obtain ⟨m2, hm2a, hm2b, hm2c⟩ := SegOp.mem_transfer base (base + m) _ s hsop
          (by omega) (by rw [length_npSwap]; omega) p2 hp2a hp2b
        have hkey2 : keyAt v s p2 = keyAt v (npSwap t base (base + m + 2 - 1)) m2 := by
          rw [keyAt, hm2c]
          rfl
        rw [hkey2]
        by_cases hm2base : m2 = base
        · rw [hm2base, keyAt, npSwap_getD_fst _ _ _ (by omega) (by omega)]
          have := hroot (m + 2) (by omega) (le_refl _)
          rw [show base + (m + 2) - 1 = base + m + 2 - 1 from by omega] at this
          exact this
        · rw [keyAt, npSwap_getD_other _ _ _ _ (by omega) (by omega)]
          have := hroot (m2 - base + 1) (by omega) (by omega)
          rw [show base + (m2 - base + 1) - 1 = m2 from by omega] at this
          exact this
      constructor
      · refine ⟨hro.1.trans hsperm, fun k hk => ?_⟩
        rw [hro.2 k (by omega), hs2 k (by omega), ht1def,
          getD_set_ne _ _ _ _ (by omega)]
      · intro k hk1 hk2
        by_cases hklast : k < base + (m + 1) - 1
        · exact hrs k hk1 (by omega)
        · have hkm : k = base + m := by omega
          subst hkm
          obtain ⟨m2, hm2a, hm2b, hm2c⟩ := SegOp.mem_transfer base (base + (m + 1) - 1)
            s _ hro (by omega) (by rw [hslen]; omega) (base + m) (by omega) (by omega)
          have hL : keyAt v (npHeapPopLoop v base (m + 1) s) (base + m) =
              keyAt v s m2 := by
            rw [keyAt, hm2c]
            rfl
          have hR : keyAt v (npHeapPopLoop v base (m + 1) s) (base + m + 1) =
              keyAt v t base := by
            rw [keyAt, hval_r]
            rfl
          rw [hL, hR]
          exact hsbound m2 hm2a (by omega)

/-- numpy `aheapsort` sorts the segment `[pl, pr]` in place: the result is
a permutation of the input, identical outside the segment, with ascending
keys on the segment. -/
lemma npHeapSortSeg_spec (v : List Int) (t : List Nat) (pl pr : Nat)
    (hpl : pl ≤ pr) (hpr : pr < t.length) :
    SegOp pl pr t (npHeapSortSeg v t pl pr) ∧
    SegSortedAdj v (npHeapSortSeg v t pl pr) pl pr := by
  rw [npHeapSortSeg]
  obtain ⟨hh1, hh2, hh3, hh4⟩ := npHeapifyLoop_spec v pl (pr + 1 - pl)
    ((pr + 1 - pl) / 2) t (by omega) (by omega)
    (fun k hk => ⟨fun h => absurd h (by omega), fun h => absurd h (by omega)⟩)
  obtain ⟨hp1, hp2⟩ := npHeapPopLoop_spec v pl (pr + 1 - pl)
    (npHeapifyLoop v pl (pr + 1 - pl) ((pr + 1 - pl) / 2) t)
    (by rw [hh1]; omega) hh4
  constructor
  · refine ⟨hp1.1.trans hh3, fun k hk => ?_⟩
    rw [hp1.2 k (by omega), hh2 k (by omega)]
  · intro k hk1 hk2
    exact hp2 k hk1 (by omega)

/-- Gluing a partition step with sorted recursions: left segment sorted
first (on `t'` giving `t1`), then right segment (on `t1` giving `t2`). -/
lemma introsort_glue_lr (v : List Int) (t t' t1 t2 : List Nat) (pl pi pr : Nat)
    (hpil : pl < pi) (hpir : pi < pr) (hlen : pr < t.length)
    (hop : SegOp pl pr t t')
    (hleft : ∀ k, pl ≤ k → k < pi → keyAt v t' k ≤ keyAt v t' pi)
    (hright : ∀ k, pi < k → k ≤ pr → keyAt v t' pi ≤ keyAt v t' k)
    (hop1 : SegOp pl (pi - 1) t' t1) (hsort1 : SegSortedAdj v t1 pl (pi - 1))
    (hop2 : SegOp (pi + 1) pr t1 t2) (hsort2 : SegSortedAdj v t2 (pi + 1) pr) :
    SegOp pl pr t t2 ∧ SegSortedAdj v t2 pl pr := by
  have hlen' : t'.length = t.length := SegOp.length_eq _ _ _ _ hop
  have hlen1 : t1.length = t'.length := SegOp.length_eq _ _ _ _ hop1
  have h2at : ∀ q, q ≤ pi → t2.getD q 0 = t1.getD q 0 := fun q hq =>
    hop2.2 q (by omega)
  have h1at : ∀ q, pi ≤ q → t1.getD q 0 = t'.getD q 0 := fun q hq =>
    hop1.2 q (by omega)
  constructor
  · exact SegOp.trans _ _ _ _ _ hop (SegOp.trans _ _ _ _ _
      (SegOp.mono _ _ _ _ _ _ (le_refl _) (by omega) hop1)
      (SegOp.mono _ _ _ _ _ _ (by omega) (le_refl _) hop2))
  · intro k hk1 hk2
    by_cases hc1 : k + 1 < pi
    · have e1 : keyAt v t2 k = keyAt v t1 k := by
        rw [keyAt, h2at k (by omega)]
        rfl
      have e2 : keyAt v t2 (k + 1) = keyAt v t1 (k + 1) := by
        rw [keyAt, h2at _ (by omega)]
        rfl
      rw [e1, e2]
      exact hsort1 k hk1 (by omega)
    · by_cases hc2 : k + 1 = pi
      · have e2 : keyAt v t2 (k + 1) = keyAt v t' pi := by
          rw [keyAt, h2at _ (by omega), h1at _ (by omega), hc2]
          rfl
        obtain ⟨m2, hm2a, hm2b, hm2c⟩ := SegOp.mem_transfer pl (pi - 1) t' t1 hop1
          (by omega) (by omega) k hk1 (by omega)
        have e1 : keyAt v t2 k = keyAt v t' m2 := by
          rw [keyAt, h2at k (by omega), hm2c]
          rfl
        rw [e1, e2]
        exact hleft m2 hm2a (by omega)
      · by_cases hc3 : k = pi
        · have e1 : keyAt v t2 k = keyAt v t' pi := by
            rw [keyAt, h2at k (by omega), h1at k (by omega), hc3]
            rfl
          obtain ⟨m2, hm2a, hm2b, hm2c⟩ := SegOp.mem_transfer (pi + 1) pr t1 t2 hop2
            (by omega) (by omega) (k + 1) (by omega) (by omega)
          have e2 : keyAt v t2 (k + 1) = keyAt v t' m2 := by
            rw [keyAt, hm2c, h1at m2 (by omega)]
            rfl
          rw [e1, e2]
          exact hright m2 (by omega) hm2b
        · exact hsort2 k (by omega) hk2

/-- Gluing a partition step with sorted recursions: right segment sorted
first (on `t'` giving `t1`), then left segment (on `t1` giving `t2`). -/
lemma introsort_glue_rl (v : List Int) (t t' t1 t2 : List Nat) (pl pi pr : Nat)
    (hpil : pl < pi) (hpir : pi < pr) (hlen : pr < t.length)
    (hop : SegOp pl pr t t')
    (hleft : ∀ k, pl ≤ k → k < pi → keyAt v t' k ≤ keyAt v t' pi)
    (hright : ∀ k, pi < k → k ≤ pr → keyAt v t' pi ≤ keyAt v t' k)
    (hop1 : SegOp (pi + 1) pr t' t1) (hsort1 : SegSortedAdj v t1 (pi + 1) pr)
    (hop2 : SegOp pl (pi - 1) t1 t2) (hsort2 : SegSortedAdj v t2 pl (pi - 1)) :
    SegOp pl pr t t2 ∧ SegSortedAdj v t2 pl pr := by
  have hlen' : t'.length = t.length := SegOp.length_eq _ _ _ _ hop
  have hlen1 : t1.length = t'.length := SegOp.length_eq _ _ _ _ hop1
  have h1at : ∀ q, q ≤ pi → t1.getD q 0 = t'.getD q 0 := fun q hq =>
    hop1.2 q (by omega)
  have h2at : ∀ q, pi ≤ q → t2.getD q 0 = t1.getD q 0 := fun q hq =>
    hop2.2 q (by omega)
  constructor
  · exact SegOp.trans _ _ _ _ _ hop (SegOp.trans _ _ _ _ _
      (SegOp.mono _ _ _ _ _ _ (by omega) (le_refl _) hop1)
      (SegOp.mono _ _ _ _ _ _ (le_refl _) (by omega) hop2))
  · intro k hk1 hk2
    by_cases hc1 : k + 1 < pi
    · exact hsort2 k hk1 (by omega)
    · by_cases hc2 : k + 1 = pi
      · have e2 : keyAt v t2 (k + 1) = keyAt v t' pi := by
          rw [keyAt, hc2, h2at _ (le_refl _), h1at _ (le_refl _)]
          rfl
        obtain ⟨m2, hm2a, hm2b, hm2c⟩ := SegOp.mem_transfer pl (pi - 1) t1 t2 hop2
          (by omega) (by omega) k hk1 (by omega)
        have e1 : keyAt v t2 k = keyAt v t' m2 := by
          rw [keyAt, hm2c, h1at m2 (by omega)]
          rfl
        rw [e1, e2]
        exact hleft m2 hm2a (by omega)
      · by_cases hc3 : k = pi
        · have e1 : keyAt v t2 k = keyAt v t' pi := by
            rw [keyAt, hc3, h2at _ (le_refl _), h1at _ (le_refl _)]
            rfl
          obtain ⟨m2, hm2a, hm2b, hm2c⟩ := SegOp.mem_transfer (pi + 1) pr t' t1 hop1
            (by omega) (by omega) (k + 1) (by omega) (by omega)
          have e2 : keyAt v t2 (k + 1) = keyAt v t' m2 := by
            rw [keyAt, h2at _ (by omega), hm2c]
            rfl
          rw [e1, e2]
          exact hright m2 (by omega) hm2b
        · have e1 : keyAt v t2 k = keyAt v t1 k := by
            rw [keyAt, h2at k (by omega)]
            rfl
          have e2 : keyAt v t2 (k + 1) = keyAt v t1 (k + 1) := by
            rw [keyAt, h2at _ (by omega)]
            rfl
          rw [e1, e2]
          exact hsort1 k (by omega) hk2

/-- numpy `aquicksort`'s main loop sorts the segment `[pl, pr]` whenever
its fuel is at least the segment length: the result is a permutation of
the input, unchanged outside the segment, with ascending keys inside. -/
lemma npIntroLoop_spec (v : List Int) :
    ∀ (fuel : Nat) (t : List Nat) (pl pr : Nat) (depth : Int),
      pr < t.length → pr + 1 - pl ≤ fuel →
      SegOp pl pr t (npIntroLoop v fuel t pl pr depth) ∧
      SegSortedAdj v (npIntroLoop v fuel t pl pr depth) pl pr := by
  intro fuel
  induction fuel with
  | zero =>
    intro t pl pr depth hlen hfuel
    rw [npIntroLoop]
    exact ⟨SegOp.refl _ _ _, fun k h1 h2 => absurd h2 (by omega)⟩
  | succ fuel ih =>
    intro t pl pr depth hlen hfuel
    rw [npIntroLoop]
    by_cases hbig : 15 < pr - pl
    · rw [if_pos hbig]
      obtain ⟨t', pi, hs⟩ : ∃ a b, npPartition v t pl pr = (a, b) := ⟨_, _, rfl⟩
      rw [hs]
      dsimp only
      obtain ⟨hop, hpil, hpir, hleft, hright⟩ :=
        npPartition_spec v t pl pr hbig hlen t' pi hs
      have hlen' : t'.length = t.length := SegOp.length_eq _ _ _ _ hop
      by_cases hside : pi - pl < pr - pi
      · rw [if_pos hside]
        obtain ⟨hop1, hsort1⟩ := ih t' pl (pi - 1) (depth - 1) (by omega) (by omega)
        have hlen1 : (npIntroLoop v fuel t' pl (pi - 1) (depth - 1)).length =
            t.length := by
          rw [SegOp.length_eq _ _ _ _ hop1, hlen']
        by_cases hdep : depth - 1 < 0
        · rw [if_pos hdep]
          obtain ⟨hop2, hsort2⟩ := npHeapSortSeg_spec v _ (pi + 1) pr (by omega)
            (by rw [hlen1]; omega)
          exact introsort_glue_lr v t t' _ _ pl pi pr hpil hpir hlen hop hleft
            hright hop1 hsort1 hop2 hsort2
        · rw [if_neg hdep]
          obtain ⟨hop2, hsort2⟩ := ih _ (pi + 1) pr (depth - 1)
            (by rw [hlen1]; omega) (by omega)
          exact introsort_glue_lr v t t' _ _ pl pi pr hpil hpir hlen hop hleft
            hright hop1 hsort1 hop2 hsort2
      · rw [if_neg hside]
        obtain ⟨hop1, hsort1⟩ := ih t' (pi + 1) pr (depth - 1) (by omega) (by omega)
        have hlen1 : (npIntroLoop v fuel t' (pi + 1) pr (depth - 1)).length =
            t.length := by
          rw [SegOp.length_eq _ _ _ _ hop1, hlen']
        by_cases hdep : depth - 1 < 0
        · rw [if_pos hdep]
          obtain ⟨hop2, hsort2⟩ := npHeapSortSeg_spec v _ pl (pi - 1) (by omega)
            (by rw [hlen1]; omega)
          exact introsort_glue_rl v t t' _ _ pl pi pr hpil hpir hlen hop hleft
            hright hop1 hsort1 hop2 hsort2
        · rw [if_neg hdep]
          obtain ⟨hop2, hsort2⟩ := ih _ pl (pi - 1) (depth - 1)
            (by rw [hlen1]; omega) (by omega)
          exact introsort_glue_rl v t t' _ _ pl pi pr hpil hpir hlen hop hleft
            hright hop1 hsort1 hop2 hsort2
    · rw [if_neg hbig]
      exact npInsertSortSeg_spec v t pl pr hlen

/-- `np.argsort(kind='quicksort')` returns a permutation of the index range
whose induced key sequence is ascending. -/
lemma npArgsort_spec (v : List Int) :
    (npArgsort v).Perm (List.range v.length) ∧
    ∀ j k, j ≤ k → k < v.length →
      keyAt v (npArgsort v) j ≤ keyAt v (npArgsort v) k := by
  by_cases hv : v.length = 0
  · obtain rfl : v = [] := List.length_eq_zero.mp hv
    exact ⟨by decide, fun j k hjk hk => absurd hk (by simp)⟩
  · have h := npIntroLoop_spec v (v.length + 1) (List.range v.length) 0
      (v.length - 1) (2 * (npMsb v.length v.length : Int))
      (by rw [List.length_range]; omega) (by omega)
    rw [npArgsort]
    exact ⟨h.1.1, fun j k hjk hk =>
      segSorted_of_adj _ _ _ _ h.2 j k (by omega) hjk (by omega)⟩

lemma map_getD_range (α : Type) (l : List α) (d : α) :
    (List.range l.length).map (fun i => l.getD i d) = l := by
  apply List.ext_getElem
  · rw [List.length_map, List.length_range]
  · intro i h1 h2
    simp only [List.getElem_map, List.getElem_range]
    rw [List.getD_eq_getElem?_getD, List.getElem?_eq_getElem h2]
    rfl

lemma getD_map_nat (α : Type) (f : Nat → α) (A : List Nat) (j : Nat) (d : α)
    (h : j < A.length) : (A.map f).getD j d = f (A.getD j 0) := by
  rw [List.getD_eq_getElem?_getD, List.getElem?_map, List.getElem?_eq_getElem h,
    List.getD_eq_getElem?_getD, List.getElem?_eq_getElem h]
  rfl

lemma shift_getD (pt : List Probe) (m : Nat) :
    (pt.map (fun p => p.shift)).getD m 0 = (pt.getD m probe0).shift := by
  by_cases h : m < pt.length
  · rw [List.getD_eq_getElem?_getD, List.getElem?_map, List.getElem?_eq_getElem h,
      List.getD_eq_getElem?_getD, List.getElem?_eq_getElem h]
    rfl
  · rw [List.getD_eq_getElem?_getD,
      List.getElem?_eq_none (by rw [List.length_map]; omega),
      List.getD_eq_getElem?_getD, List.getElem?_eq_none (by omega)]
    rfl

/-- `sort_values(by='shift')` returns a permutation of the input rows. -/
lemma sort_values_shift_perm (pt : List Probe) : (sort_values_shift pt).Perm pt := by
  rw [sort_values_shift]
  have h := (npArgsort_spec (pt.map (fun p => p.shift))).1
  have h2 := h.map (fun i => pt.getD i { shift := 0, target_sequence := [] })
  rw [List.length_map] at h2
  rw [map_getD_range Probe pt { shift := 0, target_sequence := [] }] at h2
  exact h2

/-- `sort_values(by='shift')` orders the rows by ascending shift. -/
lemma sort_values_shift_sorted (pt : List Probe) :
    ∀ j k, j ≤ k → k < pt.length →
      ((sort_values_shift pt).getD j probe0).shift ≤
        ((sort_values_shift pt).getD k probe0).shift := by
  intro j k hjk hk
  have hA : (npArgsort (pt.map (fun p => p.shift))).length = pt.length := by
    rw [length_npArgsort, List.length_map]
  have hkey := (npArgsort_spec (pt.map (fun p => p.shift))).2 j k hjk
    (by rw [List.length_map]; omega)
  rw [keyAt, keyAt, shift_getD, shift_getD] at hkey
  rw [sort_values_shift, getD_map_nat Probe _ _ _ _ (by rw [hA]; omega),
    getD_map_nat Probe _ _ _ _ (by rw [hA]; omega)]
  exact hkey

/-- C2 (amended): for every successful invocation of the single-transcript
assigner, the returned table has exactly as many rows as the input, its
rows are in ascending order of the `shift` column, and the output rows'
`(shift, target_sequence)` pairs are a permutation of the input rows'
pairs. (The stable-tie clause of the original claim is refuted by
`claim_C2_counterexample`.) -/
theorem claim_C2_sorted_output (pt : List Probe) (rs : List ReadoutSeq)
    (bc : List Char) (N : Nat) (sp : List Char) (each : Bool)
    (rng : Nat → Nat → Nat) (out : List ProbeOut)
    (h : add_readout_seqs_to_probes_of_transcript_random pt rs bc N sp each
      rng = some out) :
    out.length = pt.length ∧
    (∀ j k, j ≤ k → k < out.length →
      (out.getD j probeOut0).shift ≤ (out.getD k probeOut0).shift) ∧
    (out.map (fun p => (p.shift, p.target_sequence))).Perm
      (pt.map (fun p => (p.shift, p.target_sequence))) := by
  rw [add_readout_seqs_to_probes_of_transcript_random] at h
  cases hd : buildOnBitDict rs (barcode_to_on_bits bc) with
  | none =>
    rw [hd] at h
    exact absurd h (by simp)
  | some d =>
    simp only [hd] at h
    have hlen1 := processRows_length d _ _ _ _ _ _ (sort_values_shift pt) 0 out h
    have hsl : (sort_values_shift pt).length = pt.length :=
      length_sort_values_shift pt
    have hlen2 : out.length = pt.length := by
      rw [hlen1, hsl]
    have hrow : ∀ k, k < (sort_values_shift pt).length →
        (out.getD k probeOut0).shift =
          ((sort_values_shift pt).getD k probe0).shift ∧
        (out.getD k probeOut0).target_sequence =
          ((sort_values_shift pt).getD k probe0).target_sequence := by
      intro k hk
      have hp := processRows_getD d _ _ _ _ _ _ (sort_values_shift pt) 0 out h k hk
      obtain ⟨pobs, st, _, _, hpe⟩ := processProbe_some _ _ _ _ _ _ _ _ _ hp
      rw [hpe]
      exact ⟨rfl, rfl⟩
    refine ⟨hlen2, ?_, ?_⟩
    · intro j k hjk hk
      rw [(hrow j (by omega)).1, (hrow k (by omega)).1]
      exact sort_values_shift_sorted pt j k hjk (by omega)
    · have hmap : out.map (fun p => (p.shift, p.target_sequence)) =
          (sort_values_shift pt).map (fun p => (p.shift, p.target_sequence)) := by
        apply List.ext_getElem
        · rw [List.length_map, List.length_map, hlen1]
        · intro i h1 h2
          have hi : i < out.length := by
            rw [List.length_map] at h1
            exact h1
          have hi2 : i < (sort_values_shift pt).length := by
            rw [List.length_map] at h2
            exact h2
          have e1 : out.getD i probeOut0 = out[i] := by
            rw [List.getD_eq_getElem?_getD, List.getElem?_eq_getElem hi]
            rfl
          have e2 : (sort_values_shift pt).getD i probe0 =
              (sort_values_shift pt)[i] := by
            rw [List.getD_eq_getElem?_getD, List.getElem?_eq_getElem hi2]
            rfl
          have hr := hrow i hi2
          simp only [List.getElem_map]
          rw [← e1, ← e2, hr.1, hr.2]
      rw [hmap]
      exact (sort_values_shift_perm pt).map _

/-- Witness for C2 at the concrete one-probe fixture. -/
theorem claim_C2_sorted_output_witness :
    wOUT.length = wPT.length ∧
    (∀ j k, j ≤ k → k < wOUT.length →
      (wOUT.getD j probeOut0).shift ≤ (wOUT.getD k probeOut0).shift) ∧
    (wOUT.map (fun p => (p.shift, p.target_sequence))).Perm
      (wPT.map (fun p => (p.shift, p.target_sequence))) :=
  claim_C2_sorted_output wPT wRS ['1', '0', '1', '0'] 2 ['T', 'T'] false wRNG wOUT
    (by decide)

set_option maxRecDepth 100000 in
/-- C2 counterexample to the stable-tie clause: a 17-row table whose rows
all share `shift = 0` is returned by the assigner with its rows reordered
(numpy's default quicksort is not stable), so rows with equal shift do not
keep their original input order. -/
theorem claim_C2_counterexample :
    cexPT.map (fun p => p.shift) = List.replicate 17 0 ∧
    (add_readout_seqs_to_probes_of_transcript_random cexPT wRS ['1'] 1 [] true
      wRNG).map (List.map (fun p => p.target_sequence)) =
      some [['A'], ['O'], ['N'], ['M'], ['L'], ['K'], ['J'], ['P'], ['I'], ['G'],
        ['F'], ['E'], ['D'], ['C'], ['B'], ['H'], ['Q']] ∧
    some [['A'], ['O'], ['N'], ['M'], ['L'], ['K'], ['J'], ['P'], ['I'], ['G'],
        ['F'], ['E'], ['D'], ['C'], ['B'], ['H'], ['Q']] ≠
      some (cexPT.map (fun p => p.target_sequence)) := by
  refine ⟨by decide, by decide, by decide⟩
